import Mathlib

/-!
# blackwhale: resource lifecycle layer

A shallow embedding of `remotes/cache/memory.go` (the in-memory TTL cache)
and of the session pool of `remotes/mongo/session.go`, with the properties
stated about them.

Modelling conventions

* Execution is sequential: the mutexes (`mu`, `mpos`, `mrec`) are not
  modelled, every method runs to completion before the next one starts.  The
  one exception is `FlushPull`, whose goroutines may read the range variable
  after the loop has moved on; how late each one reads it is an argument.
* A run-time panic of an index out of range is the result `none`; a panic
  raised while a session is created is recorded in the result of the call and
  ends the run.
* `time.Time` is an integer number of nanoseconds on one monotonic clock,
  `time.Duration` an integer number of nanoseconds, `t.Add(d)` is `t + d`
  and `a.After(b)` is `b < a`.  The clock reading is an explicit argument
  of every method that calls `time.Now()`.
* A Go `map[string]*stored` is a finite map with unique keys
  (`AList`); `len` is its number of entries.
* `interface{}` values are the type `GoValue`, whose `nil` constructor is
  the nil interface value.
-/

namespace Blackwhale

/-! ## remotes/cache/memory.go -/

namespace Cache

/-- A clock reading, `time.Time`, in nanoseconds. -/
abbrev Instant := Int

/-- A `time.Duration`, in nanoseconds. -/
abbrev Duration := Int

/-- Values of type `interface{}` that callers store in the cache. -/
inductive GoValue where
  | nil : GoValue
  | int (n : Int) : GoValue
  | str (s : String) : GoValue
  deriving DecidableEq

/-- The Go struct `stored`: the cached value and the instant up to which it is valid. -/
structure stored where
  value : GoValue
  validAt : Instant
  deriving DecidableEq

/-- The Go struct `memCache`, reduced to its data field `buff`. -/
structure memCache where
  buff : AList (fun _ : String => stored)

/-- The cache built by `initializeMemory`: `buff: map[string]*stored{}`. -/
def memCache.empty : memCache := ⟨∅⟩

/-- Go `len(c.buff)`. -/
def memCache.len (c : memCache) : Nat := c.buff.entries.length

/-- Method `Put`: the guard `len(c.buff) > MAX_BUFF_SIZE` returns the error
`buffer overflow` and leaves the cache alone; otherwise the entry for `key`
is (over)written with `validAt = now + duration`.  `MAX_BUFF_SIZE` is a
package constant declared outside the files at hand and is a parameter. -/
def memCache.Put (MAX_BUFF_SIZE : Int) (now : Instant) (c : memCache)
    (key : String) (data : GoValue) (duration : Duration) : memCache × Option String :=
  if (c.len : Int) > MAX_BUFF_SIZE then
    (c, some "buffer overflow")
  else
    (⟨c.buff.insert key ⟨data, now + duration⟩⟩, none)

/-- Method `Get`: the value when the key is present and `validAt.After(now)`,
otherwise `nil`; the error is always `nil`. -/
def memCache.Get (now : Instant) (c : memCache) (key : String) : GoValue × Option String :=
  match c.buff.lookup key with
  | some val => if now < val.validAt then (val.value, none) else (GoValue.nil, none)
  | none => (GoValue.nil, none)

/-- Method `Delete`: `c.buff[key] = nil; delete(c.buff, key)`, which leaves
the map without `key`. -/
def memCache.Delete (c : memCache) (key : String) : memCache × Option String :=
  (⟨c.buff.erase key⟩, none)

/-- Method `Flush`: `c.buff = map[string]*stored{}`. -/
def memCache.Flush (_c : memCache) : memCache × Option String :=
  (⟨∅⟩, none)

/-- Method `Size`: `len(c.buff)`. -/
def memCache.Size (c : memCache) : Nat := c.len

/-- The first loop of `GarbageCollector`: the keys `k` whose entry satisfies
`val.validAt.After(time.Now())`, in iteration order. -/
def memCache.toDelete (now : Instant) (c : memCache) : List String :=
  (c.buff.entries.filter (fun e => decide (now < e.2.validAt))).map (fun e => e.1)

/-- Method `GarbageCollector`: collect `toDelete`, then `Delete` each of its
keys.  The clock is read once for the whole run. -/
def memCache.GarbageCollector (now : Instant) (c : memCache) : memCache :=
  (c.toDelete now).foldl (fun acc d => (acc.Delete d).1) c

/-- One call on the cache, as issued by a client or by the ticker. -/
inductive Op where
  | put (key : String) (data : GoValue) (duration : Duration) : Op
  | get (key : String) : Op
  | delete (key : String) : Op
  | flush : Op
  | size : Op
  | gc : Op
  deriving DecidableEq

/-- The cache after one call made at clock reading `now`. -/
def exec (MAX_BUFF_SIZE : Int) (c : memCache) (step : Op × Instant) : memCache :=
  match step.1 with
  | Op.put key data duration => (c.Put MAX_BUFF_SIZE step.2 key data duration).1
  | Op.get _ => c
  | Op.delete key => (c.Delete key).1
  | Op.flush => c.Flush.1
  | Op.size => c
  | Op.gc => c.GarbageCollector step.2

/-- The cache after a sequence of calls, each with its own clock reading. -/
def run (MAX_BUFF_SIZE : Int) (c : memCache) (steps : List (Op × Instant)) : memCache :=
  steps.foldl (exec MAX_BUFF_SIZE) c

end Cache


/-! ## remotes/mongo/session.go

The driver (`gopkg.in/mgo.v2`) and `crypto/tls` are outside the repository.
The driver's sessions are identified by the number under which they were
created; what the driver and the network answer during one call of the pool is
given by an `Env` (a call of the pool dials at most once and pings at most
once).  Calls to the driver and to the methods of `Session` are recorded as a
list of `Event`s, in order.  A panic raised on the way to a new session ends
the call, and the process with it, without a return value.
-/

namespace Mongo

/-- The identity of one `*mgo.Session` object. -/
abbrev MgoSession := Nat

/-- The Go struct `Session`; `none` is the nil pointer. -/
structure Session where
  session : Option MgoSession
  deriving DecidableEq

/-- The Go struct `configurations.Configurations`, reduced to the field that
package `mongo` reads. -/
structure Configurations where
  MongoPool : Int
  deriving DecidableEq

/-- The package variable `configurations.Configuration` as package `mongo`
finds it while its own variables are initialised: it is declared without a
value (`var Configuration Configurations`) and only `LoadConfig`, called later
by the program, assigns it. -/
def Configuration : Configurations := ⟨0⟩

/-- The package variable `maxPool`, `var maxPool int =
configurations.Configuration.MongoPool`: read once, at initialisation, and
never assigned again. -/
def maxPool : Int := Configuration.MongoPool

/-- What is recorded of one call. -/
inductive Event where
  | create : Event
  | dial : Event
  | health (s : Session) : Event
  | ping (h : MgoSession) : Event
  | close (s : Session) : Event
  | mgoClose (h : MgoSession) : Event
  deriving DecidableEq

/-- The answers of the driver and of the network during one call: the error
of `mgo.Dial` / `mgo.DialWithInfo` (`none` when the dial succeeds), the error
of `Ping` (`none` when the ping succeeds), the error of `mgo.ParseURL` and the
error of `tls.Dial` inside the `DialServer` callback (`none` when they
succeed). -/
structure Env where
  dial : Option String
  ping : Option String
  parse : Option String
  tls : Option String
  deriving DecidableEq

/-- The package variables `session`, `pool` and `looper`, and the identity
that the driver gives to the next session it creates. -/
structure Globals where
  session : Session
  pool : List Session
  looper : Int
  nextSession : MgoSession
  deriving DecidableEq

/-- The package state at start-up, `pool` nil and `looper` zero, for a given
value of the variable `session` and a given driver state. -/
def Globals.init (session : Session) (nextSession : MgoSession) : Globals :=
  ⟨session, [], 0, nextSession⟩

/-- The result of a function of Go type `(*mgo.Session, error)`, with the
driver state it leaves and the events it recorded; `panic` is set when the
function did not return but panicked. -/
structure Created where
  s : Option MgoSession
  err : Option String
  nextSession : MgoSession
  events : List Event
  panic : Option String

/-- The driver call `mgo.Dial` / `mgo.DialWithInfo`: a new session, or an error. -/
def mgoDial (env : Env) (nextSession : MgoSession) : Created :=
  match env.dial with
  | none => ⟨some nextSession, none, nextSession + 1, [Event.dial], none⟩
  | some e => ⟨none, some e, nextSession, [Event.dial], none⟩

/-- Function `newSession`: `mgo.Dial`, with `nil, err` on an error. -/
def newSession (env : Env) (nextSession : MgoSession) : Created :=
  let se := mgoDial env nextSession
  match se.err with
  | some e => ⟨none, some e, se.nextSession, se.events, none⟩
  | none => se

/-- Function `NewSessionSsl`.  It dials only while the package variable
`session` is unset; otherwise the named results keep their zero values
`nil, nil`.  When `mgo.ParseURL` fails the error is logged and the next
statement writes through the nil `dialInfo`, a run-time panic; when `tls.Dial`
fails inside `DialServer` the callback runs `panic(err)`.  In both cases
nothing is returned. -/
def NewSessionSsl (env : Env) (session : Session) (nextSession : MgoSession) : Created :=
  if session.session = none then
    match env.parse with
    | some _ => ⟨none, none, nextSession, [], some "invalid memory address or nil pointer dereference"⟩
    | none =>
      match env.tls with
      | some e => ⟨none, none, nextSession, [Event.dial], some e⟩
      | none =>
        let s := mgoDial env nextSession
        match s.err with
        | some e => ⟨none, some e, s.nextSession, s.events, none⟩
        | none => s
  else
    ⟨none, none, nextSession, [], none⟩

/-- Go `strings.Contains(s, substr)`. -/
def stringsContains (s substr : String) : Bool :=
  decide (substr.data <:+: s.data)

/-- Function `createMgoSession`. -/
def createMgoSession (env : Env) (mongoURL : String) (session : Session)
    (nextSession : MgoSession) : Created :=
  let r :=
    if stringsContains mongoURL "ssl=" then NewSessionSsl env session nextSession
    else newSession env nextSession
  ⟨r.s, r.err, r.nextSession, Event.create :: r.events, r.panic⟩

/-- Method `Close`: closes the driver session when there is one. -/
def Session.Close (s : Session) : List Event :=
  match s.session with
  | some h => [Event.close s, Event.mgoClose h]
  | none => [Event.close s]

/-- Method `Health`: the ping of the driver session, or the error
`checking health: session is nill` when there is none. -/
def Session.Health (env : Env) (s : Session) : Option String × List Event :=
  match s.session with
  | some h => (env.ping, [Event.health s, Event.ping h])
  | none => (some "checking health: session is nill", [Event.health s])

/-- What `GetCustomPoolSession` returns: the `*Session` as the index `i` of
`&pool[i]` (`none` for nil), and the error. -/
structure Ret where
  ptr : Option Nat
  err : Option String
  deriving DecidableEq

/-- One call that did not run out of the pool: what it returned, the package
state it left and the events it recorded.  When `panic` is set the call ended
in that panic, raised by `createMgoSession`, and returned nothing. -/
structure Done where
  ret : Ret
  globals : Globals
  events : List Event
  panic : Option String
  deriving DecidableEq

/-- Function `GetCustomPoolSession`.  `none` is the run-time panic of an
index out of range at `pool[pos]`. -/
def GetCustomPoolSession (maxPool : Int) (env : Env) (mongoURL : String) (g : Globals) :
    Option Done :=
  let lenPool : Int := g.pool.length
  if lenPool ≤ maxPool then
    -- looper = lenPool; pos = looper
    let looper := lenPool
    let pos := looper
    let c := createMgoSession env mongoURL g.session g.nextSession
    match c.panic with
    | some p =>
      some ⟨⟨none, none⟩, ⟨g.session, g.pool, looper, c.nextSession⟩, c.events, some p⟩
    | none =>
      match c.err with
      | some e =>
        some ⟨⟨none, some e⟩, ⟨g.session, g.pool, looper, c.nextSession⟩, c.events, none⟩
      | none =>
        some ⟨⟨some pos.toNat, none⟩,
          ⟨g.session, g.pool ++ [⟨c.s⟩], looper, c.nextSession⟩, c.events, none⟩
  else
    let looper := if g.looper ≥ maxPool then 0 else g.looper + 1
    let pos := looper
    if 0 ≤ pos ∧ pos < (g.pool.length : Int) then
      match g.pool[pos.toNat]? with
      | none => none
      | some old =>
        let h := old.Health env
        match h.1 with
        | some _ =>
          let c := createMgoSession env mongoURL g.session g.nextSession
          match c.panic with
          | some p =>
            some ⟨⟨none, none⟩, ⟨g.session, g.pool, looper, c.nextSession⟩,
              h.2 ++ old.Close ++ c.events, some p⟩
          | none =>
            some ⟨⟨some pos.toNat, c.err⟩,
              ⟨g.session, g.pool.set pos.toNat ⟨c.s⟩, looper, c.nextSession⟩,
              h.2 ++ old.Close ++ c.events, none⟩
        | none =>
          some ⟨⟨some pos.toNat, none⟩, ⟨g.session, g.pool, looper, g.nextSession⟩, h.2, none⟩
    else
      none

/-- The slot that the range variable `p` of `FlushPull` holds when the
goroutine started at iteration `i` reads it.  `go p.Close()` passes the address
of `p`; where the loop has one variable `p` for all iterations (Go before 1.22)
the loop may have gone `late[i]` iterations further by then, and `p` keeps the
last slot once the loop is over.  With one variable per iteration `late` is
empty. -/
def seenSlot (late : List Nat) (pool : List Session) (i : Nat) : Session :=
  pool.getD (min (i + late.getD i 0) (pool.length - 1)) ⟨none⟩

/-- Function `FlushPull`: one `go p.Close()` per slot, each closing the slot
that `p` holds when the goroutine runs, then `pool = nil; looper = 0`.  The
goroutines are taken in the order in which they were started. -/
def FlushPull (late : List Nat) (g : Globals) : Globals × List Event :=
  (⟨g.session, [], 0, g.nextSession⟩,
    (List.range g.pool.length).foldl (fun ev i => ev ++ (seenSlot late g.pool i).Close) [])

/-- One call on the pool; a flush comes with the delays of its goroutines. -/
inductive Call where
  | get (env : Env) : Call
  | flush (late : List Nat) : Call
  deriving DecidableEq

/-- The record of a sequential run: what each `GetCustomPoolSession` returned,
all events, the package state at the end, and the panic that ended the run if
one did. -/
structure Trace where
  rets : List Ret
  events : List Event
  globals : Globals
  panic : Option String
  deriving DecidableEq

/-- One call added to a run; `none` when it runs out of the pool.  After a
panic nothing more is run. -/
def step (maxPool : Int) (mongoURL : String) (t : Trace) (c : Call) : Option Trace :=
  match t.panic with
  | some _ => some t
  | none =>
    match c with
    | Call.get env =>
      match GetCustomPoolSession maxPool env mongoURL t.globals with
      | some d =>
        match d.panic with
        | some p => some ⟨t.rets, t.events ++ d.events, d.globals, some p⟩
        | none => some ⟨t.rets ++ [d.ret], t.events ++ d.events, d.globals, none⟩
      | none => none
    | Call.flush late =>
      let r := FlushPull late t.globals
      some ⟨t.rets, t.events ++ r.2, r.1, none⟩

/-- A sequential run of calls from the package state `g`. -/
def run (maxPool : Int) (mongoURL : String) (g : Globals) (calls : List Call) : Option Trace :=
  calls.foldlM (step maxPool mongoURL) ⟨[], [], g, none⟩

/-- What a client sees of a run: what each call returned, the number of slots
and the cursor at the end, and the panic that ended it if one did. -/
def Trace.observe (t : Trace) : List Ret × Nat × Int × Option String :=
  (t.rets, t.globals.pool.length, t.globals.looper, t.panic)

/-- The session on which an event records a call of `Close`. -/
def Event.closed : Event → Option Session
  | Event.close s => some s
  | _ => none

/-- Go's `a % b` on `int`: a zero divisor is a run-time panic, `none`. -/
def goMod (a b : Int) : Option Int :=
  if b = 0 then none else some (Int.tmod a b)

/-- The slot index that a call selects once the pool no longer grows: the
assignment to `looper` of the second half of `GetCustomPoolSession`. -/
def nextPos (maxPool : Int) (g : Globals) : Int :=
  if g.looper ≥ maxPool then 0 else g.looper + 1

/-- The invariant of the package state: the cursor lies in `0 .. maxPool`, the
pool has at most `maxPool + 1` slots, and every session held in a slot was
created earlier than the next one the driver will create. -/
def Inv (maxPool : Int) (g : Globals) : Prop :=
  0 ≤ g.looper ∧ g.looper ≤ maxPool ∧ (g.pool.length : Int) ≤ maxPool + 1 ∧
    ∀ s ∈ g.pool, ∀ h, s.session = some h → h < g.nextSession

/-- Two package states that differ at most in which driver sessions the slots
hold: same variable `session`, same cursor, and slot by slot the same answer
to "is a session set". -/
def Sim (g g' : Globals) : Prop :=
  g.session = g'.session ∧ g.looper = g'.looper ∧
    g.pool.map (fun s => s.session.isSome) = g'.pool.map (fun s => s.session.isSome)

/-- The package states that a sequential run of the pool reaches from start-up
without a panic. -/
def Reachable (maxPool : Int) (mongoURL : String) (g : Globals) : Prop :=
  ∃ session nextSession calls t,
    run maxPool mongoURL (Globals.init session nextSession) calls = some t ∧
      t.panic = none ∧ t.globals = g

end Mongo

end Blackwhale

/-! ## Properties of the cache -/

namespace Blackwhale

namespace Cache

theorem lookup_foldl_Delete (k : String) (ds : List String) (c : memCache) :
    (ds.foldl (fun acc d => (acc.Delete d).1) c).buff.lookup k =
      if k ∈ ds then none else c.buff.lookup k := by
  induction ds generalizing c with
  | nil => simp
  | cons d ds ih =>
    rw [List.foldl_cons, ih]
    by_cases hk : k ∈ ds
    · simp [hk]
    · by_cases hd : k = d
      · subst hd
        simp [hk, memCache.Delete]
      · simp [hk, hd, memCache.Delete, AList.lookup_erase_ne hd]

theorem mem_toDelete (now : Instant) (c : memCache) (k : String) :
    k ∈ c.toDelete now ↔ ∃ e, c.buff.lookup k = some e ∧ now < e.validAt := by
  unfold memCache.toDelete
  simp only [List.mem_map, List.mem_filter, decide_eq_true_eq]
  constructor
  · rintro ⟨⟨k', e⟩, ⟨hmem, hlt⟩, rfl⟩
    exact ⟨e, AList.mem_lookup_iff.mpr hmem, hlt⟩
  · rintro ⟨e, hlook, hlt⟩
    exact ⟨⟨k, e⟩, ⟨AList.mem_lookup_iff.mp hlook, hlt⟩, rfl⟩

/-- What one run of `GarbageCollector` leaves under each key: the entry that
was there when `validAt.After(now)` is false, nothing otherwise. -/
theorem GarbageCollector_lookup (now : Instant) (c : memCache) (k : String) :
    (c.GarbageCollector now).buff.lookup k =
      match c.buff.lookup k with
      | some e => if now < e.validAt then none else some e
      | none => none := by
  unfold memCache.GarbageCollector
  rw [lookup_foldl_Delete]
  cases h : c.buff.lookup k with
  | none => simp
  | some e =>
    by_cases hlt : now < e.validAt
    · simp [mem_toDelete, h, hlt]
    · simp [mem_toDelete, h, hlt]

theorem len_insert_le (c : memCache) (k : String) (e : stored) :
    (c.buff.insert k e).entries.length ≤ c.len + 1 := by
  rw [AList.insert_entries, List.length_cons]
  exact Nat.succ_le_succ (List.kerase_sublist k c.buff.entries).length_le

theorem len_erase_le (c : memCache) (k : String) : (c.Delete k).1.len ≤ c.len := by
  simp only [memCache.Delete, memCache.len, AList.erase]
  exact (List.kerase_sublist k c.buff.entries).length_le

theorem len_foldl_Delete_le (ds : List String) (c : memCache) :
    (ds.foldl (fun acc d => (acc.Delete d).1) c).len ≤ c.len := by
  induction ds generalizing c with
  | nil => exact le_refl _
  | cons d ds ih =>
    rw [List.foldl_cons]
    exact le_trans (ih _) (len_erase_le c d)

/-- The bound that the guard of `Put` does enforce: from the empty cache, the
number of entries never exceeds `MAX_BUFF_SIZE + 1`. -/
theorem len_run_le (MAX_BUFF_SIZE : Int) (hmax : 0 ≤ MAX_BUFF_SIZE) (steps : List (Op × Instant))
    (c : memCache) (hc : (c.len : Int) ≤ MAX_BUFF_SIZE + 1) :
    ((run MAX_BUFF_SIZE c steps).len : Int) ≤ MAX_BUFF_SIZE + 1 := by
  induction steps generalizing c with
  | nil => exact hc
  | cons s steps ih =>
    simp only [run, List.foldl_cons]
    apply ih
    obtain ⟨op, now⟩ := s
    cases op with
    | put key data duration =>
      simp only [exec, memCache.Put]
      split
      · exact hc
      · rename_i hguard
        have := len_insert_le c key ⟨data, now + duration⟩
        simp only [memCache.len] at this hguard ⊢
        omega
    | get key => exact hc
    | delete key =>
      have := len_erase_le c key
      simp only [exec]
      omega
    | flush =>
      simp only [exec, memCache.Flush, memCache.len, AList.empty_entries, List.length_nil,
        Nat.cast_zero]
      omega
    | size => exact hc
    | gc =>
      have := len_foldl_Delete_le (c.toDelete now) c
      simp only [exec, memCache.GarbageCollector]
      omega

/-- Between two writes of `k`, the entry under `k` can only disappear. -/
theorem exec_lookup_other (MAX_BUFF_SIZE : Int) (c : memCache) (s : Op × Instant) (k : String)
    (hs : ∀ d u, s.1 ≠ Op.put k d u) :
    (exec MAX_BUFF_SIZE c s).buff.lookup k = none ∨
      (exec MAX_BUFF_SIZE c s).buff.lookup k = c.buff.lookup k := by
  obtain ⟨op, now⟩ := s
  cases op with
  | put key data duration =>
    have hne : k ≠ key := by
      intro h
      exact hs data duration (by rw [h])
    right
    simp only [exec, memCache.Put]
    split
    · rfl
    · exact AList.lookup_insert_ne hne
  | get key => right; rfl
  | delete key =>
    by_cases h : k = key
    · left
      subst h
      simp [exec, memCache.Delete]
    · right
      simp [exec, memCache.Delete, AList.lookup_erase_ne h]
  | flush => left; simp [exec, memCache.Flush]
  | size => right; rfl
  | gc =>
    simp only [exec]
    rw [GarbageCollector_lookup]
    cases h : c.buff.lookup k with
    | none => left; rfl
    | some e =>
      by_cases hlt : now < e.validAt
      · left; simp [hlt]
      · right; simp [hlt]

theorem run_lookup_other (MAX_BUFF_SIZE : Int) (k : String) (steps : List (Op × Instant))
    (c : memCache) (hs : ∀ s ∈ steps, ∀ d u, s.1 ≠ Op.put k d u) :
    (run MAX_BUFF_SIZE c steps).buff.lookup k = none ∨
      (run MAX_BUFF_SIZE c steps).buff.lookup k = c.buff.lookup k := by
  induction steps generalizing c with
  | nil => right; rfl
  | cons s steps ih =>
    have h1 := exec_lookup_other MAX_BUFF_SIZE c s k (hs s (List.mem_cons_self _ _))
    have h2 := ih (exec MAX_BUFF_SIZE c s) (fun s' hs' => hs s' (List.mem_cons_of_mem _ hs'))
    simp only [run, List.foldl_cons] at h2 ⊢
    rcases h2 with h2 | h2
    · left; exact h2
    · rcases h1 with h1 | h1
      · left; rw [h2, h1]
      · right; rw [h2, h1]

/-- C1, as stated, fails: with `MAX_BUFF_SIZE = 1` and a cache that already
holds two entries, `Put("c", 3, 5)` at instant `0` is refused and the `Get("c")`
that follows returns nil, not `3`. -/
theorem Put_Get_refuted :
    ¬ (∀ (MAX_BUFF_SIZE : Int) (c : memCache) (k : String) (v : GoValue) (ttl : Duration)
        (t : Instant), 0 < ttl →
        (c.Put MAX_BUFF_SIZE t k v ttl).1.Get t k = (v, none)) := by
  intro h
  have h1 := h 1
    (run 1 memCache.empty [(Op.put "a" (GoValue.int 1) 5, 0), (Op.put "b" (GoValue.int 2) 5, 0)])
    "c" (GoValue.int 3) 5 0 (by decide)
  revert h1
  decide

/-- C1, amended: when the cache holds at most `MAX_BUFF_SIZE` entries, so that
`Put` is not refused, `Put(k, v, ttl)` with `ttl > 0` at instant `t` returns a
nil error and the `Get(k)` that follows at the same instant returns `v` with a
nil error. -/
theorem Put_Get_same_instant (MAX_BUFF_SIZE : Int) (c : memCache) (k : String) (v : GoValue)
    (ttl : Duration) (t : Instant) (httl : 0 < ttl) (hroom : (c.len : Int) ≤ MAX_BUFF_SIZE) :
    (c.Put MAX_BUFF_SIZE t k v ttl).2 = none ∧
      (c.Put MAX_BUFF_SIZE t k v ttl).1.Get t k = (v, none) := by
  have hguard : ¬ ((c.len : Int) > MAX_BUFF_SIZE) := not_lt.mpr hroom
  have hlt : t < t + ttl := lt_add_of_pos_right t httl
  simp [memCache.Put, memCache.Get, hguard, hlt]

theorem Put_Get_same_instant_witness :
    (memCache.empty.Put 2 0 "a" (GoValue.int 1) 5).2 = none ∧
      (memCache.empty.Put 2 0 "a" (GoValue.int 1) 5).1.Get 0 "a" = (GoValue.int 1, none) :=
  Put_Get_same_instant 2 memCache.empty "a" (GoValue.int 1) 5 0 (by decide) (by decide)

/-- C2: after a `Put(k, v, ttl)` at instant `t` that was not refused, and any
sequence of calls that does not write `k` again (garbage collections, reads,
deletions, flushes and writes of other keys, at any instants), `Get(k)` at an
instant `t'` with `t + ttl ≤ t'` returns nil with a nil error. -/
theorem Get_after_ttl (MAX_BUFF_SIZE : Int) (c : memCache) (k : String) (v : GoValue)
    (ttl : Duration) (t t' : Instant) (steps : List (Op × Instant))
    (hput : (c.Put MAX_BUFF_SIZE t k v ttl).2 = none)
    (hsteps : ∀ s ∈ steps, ∀ d u, s.1 ≠ Op.put k d u)
    (hlate : t + ttl ≤ t') :
    (run MAX_BUFF_SIZE (c.Put MAX_BUFF_SIZE t k v ttl).1 steps).Get t' k =
      (GoValue.nil, none) := by
  have hguard : ¬ ((c.len : Int) > MAX_BUFF_SIZE) := by
    intro hg
    simp [memCache.Put, hg] at hput
  have hstored : (c.Put MAX_BUFF_SIZE t k v ttl).1.buff.lookup k = some ⟨v, t + ttl⟩ := by
    simp [memCache.Put, hguard]
  have hnot : ¬ (t' < t + ttl) := not_lt.mpr hlate
  rcases run_lookup_other MAX_BUFF_SIZE k steps (c.Put MAX_BUFF_SIZE t k v ttl).1 hsteps
    with h | h
  · simp [memCache.Get, h]
  · rw [hstored] at h
    simp [memCache.Get, h, hnot]

theorem Get_after_ttl_witness :
    (run 2 (memCache.empty.Put 2 0 "x" (GoValue.int 10) 1).1
        [(Op.gc, 1), (Op.put "y" (GoValue.int 7) 9, 2), (Op.gc, 2)]).Get 3 "x" =
      (GoValue.nil, none) :=
  Get_after_ttl 2 memCache.empty "x" (GoValue.int 10) 1 0 3
    [(Op.gc, 1), (Op.put "y" (GoValue.int 7) 9, 2), (Op.gc, 2)]
    (by decide)
    (by
      intro s hs d u
      simp only [List.mem_cons, List.mem_singleton, List.not_mem_nil, or_false] at hs
      rcases hs with rfl | rfl | rfl <;> simp)
    (by decide)

/-- C3, at a cache holding `live` (valid until instant 10) and `dead` (valid
until instant 3): one run of `GarbageCollector` at instant 5 deletes `live`,
whose expiration has not passed, and keeps `dead`, whose expiration has
passed; `Get` at the same instant treats `live` as valid. -/
theorem GarbageCollector_inverted :
    ((run 5 memCache.empty
        [(Op.put "live" (GoValue.int 1) 10, 0), (Op.put "dead" (GoValue.int 2) 3, 0)]
      ).GarbageCollector 5).buff.lookup "live" = none ∧
    ((run 5 memCache.empty
        [(Op.put "live" (GoValue.int 1) 10, 0), (Op.put "dead" (GoValue.int 2) 3, 0)]
      ).GarbageCollector 5).buff.lookup "dead" = some ⟨GoValue.int 2, 3⟩ ∧
    (run 5 memCache.empty
        [(Op.put "live" (GoValue.int 1) 10, 0), (Op.put "dead" (GoValue.int 2) 3, 0)]
      ).Get 5 "live" = (GoValue.int 1, none) := by
  decide

/-- C4, with `MAX_BUFF_SIZE = 2` and a ttl of five seconds: after `Put("a", 1)`
and `Put("b", 2)`, the call `Put("c", 3)` returns a nil error and `Size()` is
`3`, above the capacity. -/
theorem Size_exceeds_capacity :
    ((run 2 memCache.empty
        [(Op.put "a" (GoValue.int 1) 5000000000, 0), (Op.put "b" (GoValue.int 2) 5000000000, 0)]
      ).Put 2 0 "c" (GoValue.int 3) 5000000000).2 = none ∧
    ((run 2 memCache.empty
        [(Op.put "a" (GoValue.int 1) 5000000000, 0), (Op.put "b" (GoValue.int 2) 5000000000, 0)]
      ).Put 2 0 "c" (GoValue.int 3) 5000000000).1.Size = 3 ∧
    ¬ (((run 2 memCache.empty
        [(Op.put "a" (GoValue.int 1) 5000000000, 0), (Op.put "b" (GoValue.int 2) 5000000000, 0)]
      ).Put 2 0 "c" (GoValue.int 3) 5000000000).1.Size : Int) ≤ 2 := by
  decide

/-- C5: `Put` returns an error exactly when the number of stored entries
exceeds `MAX_BUFF_SIZE`, and then the cache is the one it was given; in every
other case it returns a nil error, the entry under `key` is the new one and
the entry under every other key is what it was. -/
theorem Put_fail_fast (MAX_BUFF_SIZE : Int) (now : Instant) (c : memCache) (key : String)
    (data : GoValue) (duration : Duration) :
    ((c.Put MAX_BUFF_SIZE now key data duration).2 ≠ none ↔ (c.len : Int) > MAX_BUFF_SIZE) ∧
    ((c.len : Int) > MAX_BUFF_SIZE → (c.Put MAX_BUFF_SIZE now key data duration).1 = c) ∧
    (¬ (c.len : Int) > MAX_BUFF_SIZE →
      (c.Put MAX_BUFF_SIZE now key data duration).2 = none ∧
      (c.Put MAX_BUFF_SIZE now key data duration).1.buff.lookup key =
        some ⟨data, now + duration⟩ ∧
      ∀ k, k ≠ key →
        (c.Put MAX_BUFF_SIZE now key data duration).1.buff.lookup k = c.buff.lookup k) := by
  by_cases hg : (c.len : Int) > MAX_BUFF_SIZE
  · simp [memCache.Put, hg]
  · refine ⟨by simp [memCache.Put, hg], fun h => absurd h hg, fun _ => ?_⟩
    refine ⟨by simp [memCache.Put, hg], by simp [memCache.Put, hg], fun k hk => ?_⟩
    simp [memCache.Put, hg, AList.lookup_insert_ne hk]

end Cache

end Blackwhale

/-! ## Properties of the session pool -/

namespace Blackwhale

namespace Mongo

/-- The possible results of `createMgoSession`: a new session, an error,
neither (the `ssl=` path while the variable `session` is set), or a panic
(the `ssl=` path when the URL does not parse or the TLS dial fails). -/
theorem createMgoSession_cases (env : Env) (mongoURL : String) (session : Session)
    (n : MgoSession) :
    createMgoSession env mongoURL session n =
      ⟨some n, none, n + 1, [Event.create, Event.dial], none⟩ ∨
    (∃ e, createMgoSession env mongoURL session n =
      ⟨none, some e, n, [Event.create, Event.dial], none⟩) ∨
    createMgoSession env mongoURL session n = ⟨none, none, n, [Event.create], none⟩ ∨
    (∃ p, createMgoSession env mongoURL session n = ⟨none, none, n, [Event.create], some p⟩) ∨
    (∃ p, createMgoSession env mongoURL session n =
      ⟨none, none, n, [Event.create, Event.dial], some p⟩) := by
  unfold createMgoSession NewSessionSsl newSession mgoDial
  by_cases hc : stringsContains mongoURL "ssl=" = true
  · by_cases hs : session.session = none
    · cases hp : env.parse with
      | some p => simp [hc, hs]
      | none =>
        cases ht : env.tls with
        | some p => simp [hc, hs]
        | none => cases hd : env.dial <;> simp [hc, hs]
    · simp [hc, hs]
  · cases hd : env.dial <;> simp [hc]

theorem createMgoSession_create_mem (env : Env) (mongoURL : String) (session : Session)
    (n : MgoSession) : Event.create ∈ (createMgoSession env mongoURL session n).events := by
  simp [createMgoSession]

/-- A session returned by `createMgoSession` is the one the driver was about to
create, it comes with no error and no panic, and the driver never goes back. -/
theorem createMgoSession_fresh (env : Env) (mongoURL : String) (session : Session)
    (n : MgoSession) :
    n ≤ (createMgoSession env mongoURL session n).nextSession ∧
      ∀ h, (createMgoSession env mongoURL session n).s = some h →
        h = n ∧ (createMgoSession env mongoURL session n).nextSession = n + 1 ∧
          (createMgoSession env mongoURL session n).err = none ∧
          (createMgoSession env mongoURL session n).panic = none := by
  rcases createMgoSession_cases env mongoURL session n with h | ⟨e, h⟩ | h | ⟨p, h⟩ | ⟨p, h⟩
  · rw [h]
    refine ⟨Nat.le_succ n, fun x hx => ?_⟩
    simp only [Option.some.injEq] at hx
    exact ⟨hx.symm, rfl, rfl, rfl⟩
  all_goals
    rw [h]
    exact ⟨le_refl n, fun x hx => by simp at hx⟩

/-- A creation that answers an error yields no session and did not panic; one
that panics yields no session and no error. -/
theorem createMgoSession_err (env : Env) (mongoURL : String) (session : Session)
    (n : MgoSession) :
    (∀ e, (createMgoSession env mongoURL session n).err = some e →
      (createMgoSession env mongoURL session n).s = none ∧
        (createMgoSession env mongoURL session n).panic = none) ∧
    (∀ p, (createMgoSession env mongoURL session n).panic = some p →
      (createMgoSession env mongoURL session n).s = none ∧
        (createMgoSession env mongoURL session n).err = none) := by
  rcases createMgoSession_cases env mongoURL session n with h | ⟨e, h⟩ | h | ⟨p, h⟩ | ⟨p, h⟩ <;>
    rw [h] <;> simp

/-- The first half of `GetCustomPoolSession`, taken while `len(pool) <= maxPool`. -/
theorem get_grow (maxPool : Int) (env : Env) (mongoURL : String) (g : Globals)
    (h : (g.pool.length : Int) ≤ maxPool) :
    GetCustomPoolSession maxPool env mongoURL g =
      match (createMgoSession env mongoURL g.session g.nextSession).panic with
      | some p =>
        some ⟨⟨none, none⟩,
          ⟨g.session, g.pool, g.pool.length,
            (createMgoSession env mongoURL g.session g.nextSession).nextSession⟩,
          (createMgoSession env mongoURL g.session g.nextSession).events, some p⟩
      | none =>
        match (createMgoSession env mongoURL g.session g.nextSession).err with
        | some e =>
          some ⟨⟨none, some e⟩,
            ⟨g.session, g.pool, g.pool.length,
              (createMgoSession env mongoURL g.session g.nextSession).nextSession⟩,
            (createMgoSession env mongoURL g.session g.nextSession).events, none⟩
        | none =>
          some ⟨⟨some g.pool.length, none⟩,
            ⟨g.session, g.pool ++ [⟨(createMgoSession env mongoURL g.session g.nextSession).s⟩],
              g.pool.length,
              (createMgoSession env mongoURL g.session g.nextSession).nextSession⟩,
            (createMgoSession env mongoURL g.session g.nextSession).events, none⟩ := by
  simp only [GetCustomPoolSession, h, if_true, Int.toNat_ofNat]

/-- The second half of `GetCustomPoolSession`, taken once `len(pool) > maxPool`,
when the selected index lies in the pool. -/
theorem get_cycle (maxPool : Int) (env : Env) (mongoURL : String) (g : Globals)
    (hfull : maxPool < (g.pool.length : Int)) (i : Nat) (old : Session)
    (hi : (i : Int) = nextPos maxPool g) (hold : g.pool[i]? = some old) :
    GetCustomPoolSession maxPool env mongoURL g =
      match (old.Health env).1 with
      | some _ =>
        match (createMgoSession env mongoURL g.session g.nextSession).panic with
        | some p =>
          some ⟨⟨none, none⟩,
            ⟨g.session, g.pool, i,
              (createMgoSession env mongoURL g.session g.nextSession).nextSession⟩,
            (old.Health env).2 ++ old.Close ++
              (createMgoSession env mongoURL g.session g.nextSession).events, some p⟩
        | none =>
          some ⟨⟨some i, (createMgoSession env mongoURL g.session g.nextSession).err⟩,
            ⟨g.session,
              g.pool.set i ⟨(createMgoSession env mongoURL g.session g.nextSession).s⟩,
              i, (createMgoSession env mongoURL g.session g.nextSession).nextSession⟩,
            (old.Health env).2 ++ old.Close ++
              (createMgoSession env mongoURL g.session g.nextSession).events, none⟩
      | none =>
        some ⟨⟨some i, none⟩, ⟨g.session, g.pool, i, g.nextSession⟩, (old.Health env).2,
          none⟩ := by
  have hlt : i < g.pool.length := by
    rcases List.getElem?_eq_some.mp hold with ⟨h, _⟩
    exact h
  have hnot : ¬ ((g.pool.length : Int) ≤ maxPool) := not_le.mpr hfull
  have hpos : (if g.looper ≥ maxPool then (0 : Int) else g.looper + 1) = (i : Int) := by
    rw [hi]; rfl
  have hrange : (0 : Int) ≤ (i : Int) ∧ (i : Int) < (g.pool.length : Int) :=
    ⟨Int.ofNat_nonneg i, by exact_mod_cast hlt⟩
  simp only [GetCustomPoolSession, hnot, if_false, hpos, hrange, and_self, if_true,
    Int.toNat_ofNat, hold]

/-- Under the invariant, a full pool has the selected index inside it. -/
theorem nextPos_valid (maxPool : Int) (g : Globals) (hinv : Inv maxPool g)
    (hfull : maxPool < (g.pool.length : Int)) :
    ∃ (i : Nat) (old : Session), (i : Int) = nextPos maxPool g ∧ g.pool[i]? = some old := by
  obtain ⟨h0, h1, _, _⟩ := hinv
  have hnonneg : 0 ≤ nextPos maxPool g := by
    unfold nextPos; split <;> omega
  have hle : nextPos maxPool g ≤ maxPool := by
    unfold nextPos; split <;> omega
  have hi : ((nextPos maxPool g).toNat : Int) = nextPos maxPool g := Int.toNat_of_nonneg hnonneg
  have hlt : (nextPos maxPool g).toNat < g.pool.length := by
    have : ((nextPos maxPool g).toNat : Int) < (g.pool.length : Int) := by omega
    exact_mod_cast this
  exact ⟨(nextPos maxPool g).toNat, g.pool[(nextPos maxPool g).toNat], hi,
    List.getElem?_eq_getElem hlt⟩

theorem inv_init (maxPool : Int) (hmax : 0 ≤ maxPool) (session : Session) (n : MgoSession) :
    Inv maxPool (Globals.init session n) := by
  refine ⟨le_refl _, hmax, ?_, ?_⟩
  · simp only [Globals.init, List.length_nil, Nat.cast_zero]; omega
  · intro s hs; simp [Globals.init] at hs

theorem inv_FlushPull (maxPool : Int) (hmax : 0 ≤ maxPool) (late : List Nat) (g : Globals) :
    Inv maxPool (FlushPull late g).1 :=
  inv_init maxPool hmax g.session g.nextSession

/-- Every call of `GetCustomPoolSession` that stays inside the pool keeps the
invariant. -/
theorem inv_get (maxPool : Int) (env : Env) (mongoURL : String) (g : Globals) (d : Done)
    (hinv : Inv maxPool g) (hd : GetCustomPoolSession maxPool env mongoURL g = some d) :
    Inv maxPool d.globals := by
  obtain ⟨h0, h1, h2, h3⟩ := hinv
  have hfresh := createMgoSession_fresh env mongoURL g.session g.nextSession
  have hkeep : ∀ s ∈ g.pool, ∀ x, s.session = some x →
      x < (createMgoSession env mongoURL g.session g.nextSession).nextSession :=
    fun s hs x hx => lt_of_lt_of_le (h3 s hs x hx) hfresh.1
  have hnew : ∀ x, (createMgoSession env mongoURL g.session g.nextSession).s = some x →
      x < (createMgoSession env mongoURL g.session g.nextSession).nextSession := by
    intro x hx
    obtain ⟨hx1, hx2, _⟩ := hfresh.2 x hx
    rw [hx2, hx1]
    exact Nat.lt_succ_self _
  by_cases hgrow : (g.pool.length : Int) ≤ maxPool
  · rw [get_grow maxPool env mongoURL g hgrow] at hd
    cases hp : (createMgoSession env mongoURL g.session g.nextSession).panic with
    | some p =>
      rw [hp] at hd
      simp only [Option.some.injEq] at hd
      subst hd
      exact ⟨Int.ofNat_nonneg _, hgrow, h2, hkeep⟩
    | none =>
      rw [hp] at hd
      cases herr : (createMgoSession env mongoURL g.session g.nextSession).err with
      | some e =>
        rw [herr] at hd
        simp only [Option.some.injEq] at hd
        subst hd
        exact ⟨Int.ofNat_nonneg _, hgrow, h2, hkeep⟩
      | none =>
        rw [herr] at hd
        simp only [Option.some.injEq] at hd
        subst hd
        refine ⟨Int.ofNat_nonneg _, hgrow, ?_, fun s hs x hx => ?_⟩
        · simp only [List.length_append, List.length_singleton, Nat.cast_add, Nat.cast_one]
          omega
        · simp only [List.mem_append, List.mem_singleton] at hs
          rcases hs with hs | hs
          · exact hkeep s hs x hx
          · subst hs
            exact hnew x hx
  · have hfull : maxPool < (g.pool.length : Int) := not_le.mp hgrow
    obtain ⟨i, old, hi, hold⟩ := nextPos_valid maxPool g ⟨h0, h1, h2, h3⟩ hfull
    have hi0 : (0 : Int) ≤ (i : Int) := Int.ofNat_nonneg i
    have hile : (i : Int) ≤ maxPool := by
      rw [hi]; unfold nextPos; split <;> omega
    rw [get_cycle maxPool env mongoURL g hfull i old hi hold] at hd
    cases hh : (old.Health env).1 with
    | none =>
      rw [hh] at hd
      simp only [Option.some.injEq] at hd
      subst hd
      exact ⟨hi0, hile, h2, h3⟩
    | some e =>
      rw [hh] at hd
      cases hp : (createMgoSession env mongoURL g.session g.nextSession).panic with
      | some p =>
        rw [hp] at hd
        simp only [Option.some.injEq] at hd
        subst hd
        exact ⟨hi0, hile, h2, hkeep⟩
      | none =>
        rw [hp] at hd
        simp only [Option.some.injEq] at hd
        subst hd
        refine ⟨hi0, hile, by simpa using h2, fun s hs x hx => ?_⟩
        rcases List.mem_or_eq_of_mem_set hs with hs | hs
        · exact hkeep s hs x hx
        · subst hs
          exact hnew x hx

/-- Under the invariant, `GetCustomPoolSession` stays inside the pool: no index
is out of range. -/
theorem get_completes (maxPool : Int) (env : Env) (mongoURL : String) (g : Globals)
    (hinv : Inv maxPool g) : ∃ d, GetCustomPoolSession maxPool env mongoURL g = some d := by
  by_cases hgrow : (g.pool.length : Int) ≤ maxPool
  · rw [get_grow maxPool env mongoURL g hgrow]
    cases (createMgoSession env mongoURL g.session g.nextSession).panic with
    | some p => exact ⟨_, rfl⟩
    | none =>
      cases (createMgoSession env mongoURL g.session g.nextSession).err with
      | some e => exact ⟨_, rfl⟩
      | none => exact ⟨_, rfl⟩
  · have hfull : maxPool < (g.pool.length : Int) := not_le.mp hgrow
    obtain ⟨i, old, hi, hold⟩ := nextPos_valid maxPool g hinv hfull
    rw [get_cycle maxPool env mongoURL g hfull i old hi hold]
    cases (old.Health env).1 with
    | some e =>
      cases (createMgoSession env mongoURL g.session g.nextSession).panic with
      | some p => exact ⟨_, rfl⟩
      | none => exact ⟨_, rfl⟩
    | none => exact ⟨_, rfl⟩

/-- What `step` does with a call of `GetCustomPoolSession` on a run that has
not panicked. -/
theorem step_get (maxPool : Int) (mongoURL : String) (t : Trace) (env : Env) (d : Done)
    (ht : t.panic = none) (hd : GetCustomPoolSession maxPool env mongoURL t.globals = some d) :
    step maxPool mongoURL t (Call.get env) =
      some ⟨if d.panic = none then t.rets ++ [d.ret] else t.rets, t.events ++ d.events,
        d.globals, d.panic⟩ := by
  simp only [step, ht, hd]
  cases hp : d.panic <;> simp

theorem step_panicked (maxPool : Int) (mongoURL : String) (t : Trace) (c : Call) (p : String)
    (ht : t.panic = some p) : step maxPool mongoURL t c = some t := by
  simp only [step, ht]

theorem foldlM_panicked (maxPool : Int) (mongoURL : String) (calls : List Call) (t : Trace)
    (p : String) (ht : t.panic = some p) :
    calls.foldlM (step maxPool mongoURL) t = some t := by
  induction calls with
  | nil => rfl
  | cons c cs ih =>
    simp only [List.foldlM_cons, Option.bind_eq_bind, step_panicked maxPool mongoURL t c p ht,
      Option.some_bind, ih]

theorem inv_step (maxPool : Int) (mongoURL : String) (t t' : Trace) (c : Call)
    (hmax : 0 ≤ maxPool) (hinv : Inv maxPool t.globals)
    (hs : step maxPool mongoURL t c = some t') : Inv maxPool t'.globals := by
  cases ht : t.panic with
  | some p =>
    rw [step_panicked maxPool mongoURL t c p ht] at hs
    simp only [Option.some.injEq] at hs
    subst hs
    exact hinv
  | none =>
    cases c with
    | get env =>
      cases hg : GetCustomPoolSession maxPool env mongoURL t.globals with
      | none => simp [step, ht, hg] at hs
      | some d =>
        rw [step_get maxPool mongoURL t env d ht hg] at hs
        simp only [Option.some.injEq] at hs
        subst hs
        exact inv_get maxPool env mongoURL t.globals d hinv hg
    | flush late =>
      simp only [step, ht, Option.some.injEq] at hs
      subst hs
      exact inv_FlushPull maxPool hmax late t.globals

theorem inv_foldlM (maxPool : Int) (mongoURL : String) (hmax : 0 ≤ maxPool) (calls : List Call)
    (t t' : Trace) (hinv : Inv maxPool t.globals)
    (hr : calls.foldlM (step maxPool mongoURL) t = some t') : Inv maxPool t'.globals := by
  induction calls generalizing t with
  | nil =>
    simp only [List.foldlM_nil, Option.pure_def, Option.some.injEq] at hr
    subst hr; exact hinv
  | cons c cs ih =>
    simp only [List.foldlM_cons, Option.bind_eq_bind] at hr
    cases hs : step maxPool mongoURL t c with
    | none => rw [hs] at hr; simp at hr
    | some t1 =>
      rw [hs] at hr
      exact ih t1 (inv_step maxPool mongoURL t t1 c hmax hinv hs) hr

/-- Every reachable package state satisfies the invariant. -/
theorem inv_of_reachable (maxPool : Int) (mongoURL : String) (hmax : 0 ≤ maxPool) (g : Globals)
    (hr : Reachable maxPool mongoURL g) : Inv maxPool g := by
  obtain ⟨session, n, calls, t, hrun, _, rfl⟩ := hr
  exact inv_foldlM maxPool mongoURL hmax calls ⟨[], [], Globals.init session n, none⟩ t
    (inv_init maxPool hmax session n) hrun

/-- Under the invariant the selected index is the cursor advanced by one
modulo `maxPool + 1`. -/
theorem nextPos_eq_mod (maxPool : Int) (g : Globals) (hinv : Inv maxPool g) :
    nextPos maxPool g = (g.looper + 1) % (maxPool + 1) := by
  obtain ⟨h0, h1, _, _⟩ := hinv
  unfold nextPos
  split
  · have : g.looper = maxPool := by omega
    rw [this, Int.emod_self]
  · rw [Int.emod_eq_of_lt (by omega) (by omega)]

/-- Under the invariant a pool that no longer grows has `maxPool + 1` slots. -/
theorem full_length (maxPool : Int) (g : Globals) (hinv : Inv maxPool g)
    (hfull : maxPool < (g.pool.length : Int)) : (g.pool.length : Int) = maxPool + 1 := by
  obtain ⟨_, _, h2, _⟩ := hinv
  omega

theorem closed_Health (env : Env) (s : Session) :
    (s.Health env).2.filterMap Event.closed = [] := by
  unfold Session.Health
  cases s.session <;> simp [Event.closed]

theorem closed_Close (s : Session) : s.Close.filterMap Event.closed = [s] := by
  unfold Session.Close
  cases s.session <;> simp [Event.closed]

theorem closed_create (env : Env) (mongoURL : String) (session : Session) (n : MgoSession) :
    (createMgoSession env mongoURL session n).events.filterMap Event.closed = [] := by
  rcases createMgoSession_cases env mongoURL session n with h | ⟨e, h⟩ | h | ⟨p, h⟩ | ⟨p, h⟩ <;>
    rw [h] <;> simp [Event.closed]

theorem Health_no_create (env : Env) (s : Session) :
    Event.create ∉ (s.Health env).2 ∧ Event.dial ∉ (s.Health env).2 := by
  unfold Session.Health
  cases s.session <;> simp

/-- C6, at the value `maxPool = 0` that the program has, with every creation
and ping succeeding: the first call is made with `len(pool) == 0 == maxPool`,
and it dials a new session and appends a slot, so that `len(pool)` becomes `1`;
the calls that follow return that slot and leave the pool at one slot. -/
theorem pool_grows_past_maxPool :
    maxPool = 0 ∧
    ((Globals.init ⟨none⟩ 0).pool.length : Int) = maxPool ∧
    GetCustomPoolSession maxPool ⟨none, none, none, none⟩ "mongodb://db" (Globals.init ⟨none⟩ 0) =
      some ⟨⟨some 0, none⟩, ⟨⟨none⟩, [⟨some 0⟩], 0, 1⟩, [Event.create, Event.dial], none⟩ ∧
    (run maxPool "mongodb://db" (Globals.init ⟨none⟩ 0)
        [Call.get ⟨none, none, none, none⟩, Call.get ⟨none, none, none, none⟩,
          Call.get ⟨none, none, none, none⟩]).map Trace.observe =
      some ([⟨some 0, none⟩, ⟨some 0, none⟩, ⟨some 0, none⟩], 1, 0, none) := by
  decide

/-! ### Round robin -/

theorem range_succ_map (n : Nat) (f : Nat → Option Nat) :
    (List.range (n + 1)).map f = f 0 :: (List.range n).map (fun k => f (k + 1)) := by
  rw [List.range_succ_eq_map]
  simp [List.map_map, Function.comp_def]

/-- From a full pool, calls of `GetCustomPoolSession` advance the cursor by one
modulo the number of slots and return the slot under the cursor. -/
theorem foldlM_cycle (maxPool : Int) (mongoURL : String) (envs : List Env) (t0 : Trace)
    (hinv : Inv maxPool t0.globals) (hfull : maxPool < (t0.globals.pool.length : Int))
    (hp0 : t0.panic = none) :
    ∃ t, (envs.map Call.get).foldlM (step maxPool mongoURL) t0 = some t ∧
      t.globals.pool.length = t0.globals.pool.length ∧
      (t.panic = none →
        t.globals.looper =
          (t0.globals.looper + (envs.length : Int)) % (t0.globals.pool.length : Int) ∧
        t.rets.map Ret.ptr = t0.rets.map Ret.ptr ++ (List.range envs.length).map
          (fun (k : Nat) => some
            ((t0.globals.looper + 1 + (k : Int)) % (t0.globals.pool.length : Int)).toNat)) := by
  induction envs generalizing t0 with
  | nil =>
    refine ⟨t0, rfl, rfl, fun _ => ?_⟩
    have hlen := full_length maxPool t0.globals hinv hfull
    obtain ⟨h0, h1, _, _⟩ := hinv
    simp only [List.length_nil, Nat.cast_zero, add_zero, List.range_zero, List.map_nil,
      List.append_nil, and_true]
    rw [Int.emod_eq_of_lt h0 (by omega)]
  | cons env envs ih =>
    have hlen := full_length maxPool t0.globals hinv hfull
    obtain ⟨i, old, hi, hold⟩ := nextPos_valid maxPool t0.globals hinv hfull
    have himod : (i : Int) = (t0.globals.looper + 1) % (t0.globals.pool.length : Int) := by
      rw [hi, nextPos_eq_mod maxPool t0.globals hinv, hlen]
    obtain ⟨d, hd⟩ := get_completes maxPool env mongoURL t0.globals hinv
    have hinv1 := inv_get maxPool env mongoURL t0.globals d hinv hd
    have hstep := step_get maxPool mongoURL t0 env d hp0 hd
    have hshape : d.globals.pool.length = t0.globals.pool.length ∧ d.globals.looper = (i : Int) ∧
        (d.panic = none → d.ret.ptr = some i) := by
      have hget := get_cycle maxPool env mongoURL t0.globals hfull i old hi hold
      rw [hd] at hget
      cases hh : (old.Health env).1 with
      | none =>
        rw [hh] at hget
        simp only [Option.some.injEq] at hget
        subst hget
        exact ⟨rfl, rfl, fun _ => rfl⟩
      | some e =>
        rw [hh] at hget
        cases hp : (createMgoSession env mongoURL t0.globals.session
            t0.globals.nextSession).panic with
        | some p =>
          rw [hp] at hget
          simp only [Option.some.injEq] at hget
          subst hget
          exact ⟨rfl, rfl, fun habs => by simp at habs⟩
        | none =>
          rw [hp] at hget
          simp only [Option.some.injEq] at hget
          subst hget
          exact ⟨List.length_set _ _ _, rfl, fun _ => rfl⟩
    obtain ⟨hl1, hloop1, hret1⟩ := hshape
    simp only [List.map_cons, List.foldlM_cons, Option.bind_eq_bind, hstep, Option.some_bind]
    cases hp : d.panic with
    | some p =>
      refine ⟨_, foldlM_panicked maxPool mongoURL _ _ p rfl, hl1, fun habs => ?_⟩
      simp at habs
    | none =>
      obtain ⟨t, ht, hlt, hrest⟩ := ih
        ⟨if d.panic = none then t0.rets ++ [d.ret] else t0.rets, t0.events ++ d.events,
          d.globals, d.panic⟩ hinv1 (by simp only [hl1]; exact hfull) hp
      rw [hp] at ht
      refine ⟨t, ht, by rw [hlt]; exact hl1, fun hpt => ?_⟩
      obtain ⟨hloop, hrets⟩ := hrest hpt
      simp only [hloop1, hl1, hp, if_true, List.map_append, List.map_cons, List.map_nil,
        hret1 hp] at hloop hrets
      constructor
      · rw [hloop, himod, Int.emod_add_emod]
        simp only [List.length_cons, Nat.cast_add, Nat.cast_one]
        congr 1
        ring
      · rw [hrets, List.length_cons, range_succ_map, List.append_assoc, List.singleton_append]
        congr 2
        · simp only [Nat.cast_zero, add_zero, Option.some.injEq]
          rw [← himod]
          exact (Int.toNat_ofNat i).symm
        · apply List.map_congr_left
          intro k _
          simp only [Option.some.injEq]
          congr 1
          rw [himod, add_assoc, Int.emod_add_emod]
          congr 1
          push_cast
          ring

/-- C7, as stated, fails at the value `maxPool = 0` that the program has: in
the state reached by the first call the pool is full with one slot and the
cursor is `0`; the next call selects index `0`, whereas `(cursor + 1) mod
maxPool` is a division by zero in Go, and `1` where the remainder by zero is
taken to be the dividend. -/
theorem round_robin_refuted :
    ¬ (∀ (g : Globals) (env : Env), Reachable maxPool "mongodb://db" g →
        maxPool < (g.pool.length : Int) →
        ∃ d i, GetCustomPoolSession maxPool env "mongodb://db" g = some d ∧
          d.ret.ptr = some i ∧ goMod (g.looper + 1) maxPool = some (i : Int)) ∧
    ¬ (∀ (g : Globals) (env : Env), Reachable maxPool "mongodb://db" g →
        maxPool < (g.pool.length : Int) →
        ∃ d i, GetCustomPoolSession maxPool env "mongodb://db" g = some d ∧
          d.ret.ptr = some i ∧ (i : Int) = (g.looper + 1) % maxPool) := by
  have hreach : Reachable maxPool "mongodb://db" ⟨⟨none⟩, [⟨some 0⟩], 0, 1⟩ :=
    ⟨⟨none⟩, 0, [Call.get ⟨none, none, none, none⟩], _, rfl, rfl, rfl⟩
  constructor
  · intro h
    obtain ⟨d, i, _, _, hmod⟩ := h ⟨⟨none⟩, [⟨some 0⟩], 0, 1⟩ ⟨none, none, none, none⟩ hreach
      (by decide)
    simp [goMod, maxPool, Configuration] at hmod
  · intro h
    obtain ⟨d, i, hd, hi, hmod⟩ := h ⟨⟨none⟩, [⟨some 0⟩], 0, 1⟩ ⟨none, none, none, none⟩ hreach
      (by decide)
    have hd' : GetCustomPoolSession maxPool ⟨none, none, none, none⟩ "mongodb://db"
        ⟨⟨none⟩, [⟨some 0⟩], 0, 1⟩ =
        some ⟨⟨some 0, none⟩, ⟨⟨none⟩, [⟨some 0⟩], 0, 1⟩,
          [Event.health ⟨some 0⟩, Event.ping 0], none⟩ := by decide
    rw [hd'] at hd
    simp only [Option.some.injEq] at hd
    subst hd
    simp only [Option.some.injEq] at hi
    subst hi
    simp [maxPool, Configuration] at hmod

/-- C7, amended: from a reachable state whose pool no longer grows, any
sequence of calls stays inside the pool and leaves its length unchanged, and
as long as no call panics the call number `k` (counted from zero) returns the
slot at index `(cursor + 1 + k) mod len(pool)`, the cursor ending at
`(cursor + n) mod len(pool)` after `n` calls: each call selects the index after
the one selected by the previous call, modulo the number of slots, and the
slots are visited in a fixed cyclic order of period `len(pool)`. -/
theorem round_robin_cycle (maxPool : Int) (mongoURL : String) (g : Globals) (envs : List Env)
    (hmax : 0 ≤ maxPool) (hr : Reachable maxPool mongoURL g)
    (hfull : maxPool < (g.pool.length : Int)) :
    ∃ t, run maxPool mongoURL g (envs.map Call.get) = some t ∧
      t.globals.pool.length = g.pool.length ∧
      (t.panic = none →
        t.globals.looper = (g.looper + (envs.length : Int)) % (g.pool.length : Int) ∧
        t.rets.map Ret.ptr = (List.range envs.length).map
          (fun (k : Nat) => some ((g.looper + 1 + (k : Int)) % (g.pool.length : Int)).toNat)) := by
  have hinv := inv_of_reachable maxPool mongoURL hmax g hr
  obtain ⟨t, ht, hl, hrest⟩ := foldlM_cycle maxPool mongoURL envs ⟨[], [], g, none⟩ hinv hfull rfl
  refine ⟨t, ht, hl, fun hp => ?_⟩
  obtain ⟨h1, h2⟩ := hrest hp
  exact ⟨h1, by simpa using h2⟩

theorem round_robin_cycle_witness :
    ∃ t, run maxPool "mongodb://db" ⟨⟨none⟩, [⟨some 0⟩], 0, 1⟩
        ([⟨none, none, none, none⟩, ⟨none, some "EOF", none, none⟩,
          ⟨none, none, none, none⟩].map Call.get) = some t ∧
      t.globals.pool.length = (⟨⟨none⟩, [⟨some 0⟩], 0, 1⟩ : Globals).pool.length ∧
      (t.panic = none →
        t.globals.looper =
          ((⟨⟨none⟩, [⟨some 0⟩], 0, 1⟩ : Globals).looper +
            (([⟨none, none, none, none⟩, ⟨none, some "EOF", none, none⟩,
              ⟨none, none, none, none⟩] : List Env).length : Int)) %
            ((⟨⟨none⟩, [⟨some 0⟩], 0, 1⟩ : Globals).pool.length : Int) ∧
        t.rets.map Ret.ptr =
          (List.range ([⟨none, none, none, none⟩, ⟨none, some "EOF", none, none⟩,
              ⟨none, none, none, none⟩] : List Env).length).map
            (fun (k : Nat) => some (((⟨⟨none⟩, [⟨some 0⟩], 0, 1⟩ : Globals).looper + 1 + (k : Int)) %
              ((⟨⟨none⟩, [⟨some 0⟩], 0, 1⟩ : Globals).pool.length : Int)).toNat)) :=
  round_robin_cycle maxPool "mongodb://db" ⟨⟨none⟩, [⟨some 0⟩], 0, 1⟩
    [⟨none, none, none, none⟩, ⟨none, some "EOF", none, none⟩, ⟨none, none, none, none⟩]
    (by decide) ⟨⟨none⟩, 0, [Call.get ⟨none, none, none, none⟩], _, rfl, rfl, rfl⟩ (by decide)

/-! ### Replacement of an unhealthy slot -/

/-- In a reachable state whose pool no longer grows, the call selects the slot
`i` after the cursor.  When `Health()` of that slot returns nil, the call
returns `&pool[i]` with a nil error, the pool and the driver are as they were
and no `Close`, creation or dial took place.  When `Health()` returns an error
and the creation yields a session `h`, the call returns `&pool[i]` with a nil
error, `h` is the session the driver had not created before, it is installed
in slot `i`, no slot held it before, `Close()` was called exactly once and on
the old slot, and every other slot is unchanged. -/
theorem replace_unhealthy (maxPool : Int) (env : Env) (mongoURL : String) (g : Globals)
    (hmax : 0 ≤ maxPool) (hr : Reachable maxPool mongoURL g)
    (hfull : maxPool < (g.pool.length : Int)) :
    ∃ (i : Nat) (old : Session) (d : Done),
      (i : Int) = nextPos maxPool g ∧ g.pool[i]? = some old ∧
      GetCustomPoolSession maxPool env mongoURL g = some d ∧
      ((old.Health env).1 = none →
        d.ret = ⟨some i, none⟩ ∧ d.panic = none ∧ d.globals.pool = g.pool ∧
        d.globals.nextSession = g.nextSession ∧
        d.events.filterMap Event.closed = [] ∧
        Event.create ∉ d.events ∧ Event.dial ∉ d.events) ∧
      ((old.Health env).1 ≠ none →
        ∀ h, (createMgoSession env mongoURL g.session g.nextSession).s = some h →
          d.ret = ⟨some i, none⟩ ∧ d.panic = none ∧ h = g.nextSession ∧
          d.globals.pool = g.pool.set i ⟨some h⟩ ∧
          d.globals.pool[i]? = some ⟨some h⟩ ∧
          (∀ s ∈ g.pool, s ≠ ⟨some h⟩) ∧
          d.events.filterMap Event.closed = [old] ∧
          ∀ j, j ≠ i → d.globals.pool[j]? = g.pool[j]?) := by
  have hinv := inv_of_reachable maxPool mongoURL hmax g hr
  obtain ⟨i, old, hi, hold⟩ := nextPos_valid maxPool g hinv hfull
  have hlt : i < g.pool.length := (List.getElem?_eq_some.mp hold).1
  have hget := get_cycle maxPool env mongoURL g hfull i old hi hold
  cases hh : (old.Health env).1 with
  | none =>
    rw [hh] at hget
    refine ⟨i, old, _, hi, hold, hget, fun _ => ?_, fun hne => absurd hh hne⟩
    exact ⟨rfl, rfl, rfl, rfl, closed_Health env old, (Health_no_create env old).1,
      (Health_no_create env old).2⟩
  | some e =>
    rw [hh] at hget
    cases hp : (createMgoSession env mongoURL g.session g.nextSession).panic with
    | some p =>
      rw [hp] at hget
      refine ⟨i, old, _, hi, hold, hget, fun habs => ?_, fun _ h hs => ?_⟩
      · rw [hh] at habs
        exact absurd habs (Option.some_ne_none e)
      · have := ((createMgoSession_fresh env mongoURL g.session g.nextSession).2 h hs).2.2.2
        rw [hp] at this
        exact absurd this (Option.some_ne_none p)
    | none =>
      rw [hp] at hget
      refine ⟨i, old, _, hi, hold, hget, fun habs => ?_, fun _ h hs => ?_⟩
      · rw [hh] at habs
        exact absurd habs (Option.some_ne_none e)
      · obtain ⟨hh1, _, hh3, _⟩ :=
          (createMgoSession_fresh env mongoURL g.session g.nextSession).2 h hs
        refine ⟨by simp only [hh3], rfl, hh1, by rw [hs], ?_, ?_, ?_, ?_⟩
        · simp only [hs]
          rw [List.getElem?_set_self hlt]
        · intro s hmem heq
          have hlt2 : h < g.nextSession := hinv.2.2.2 s hmem h (by rw [heq])
          exact absurd hh1 (Nat.ne_of_lt hlt2)
        · simp only [List.filterMap_append, closed_Health, closed_Close, closed_create,
            List.nil_append, List.append_nil]
        · intro j hj
          simp only
          rw [List.getElem?_set_ne (Ne.symm hj)]

/-- C8, on the URL `mongodb://db/?ssl=true` with `maxPool = 0`, once the
package variable `session` is set: `createMgoSession` returns `nil, nil`.  In
the state reached by one call from start-up the only slot holds a nil session,
and the next call finds it unhealthy, calls `Close()`, creates nothing and
returns the slot, still nil, with a nil error.  In the state where the slot
holds session `0` and its ping fails, the call closes session `0`, installs a
nil session in the slot and returns it with a nil error; the driver has
created no session. -/
theorem replace_installs_nil_session :
    (createMgoSession ⟨none, none, none, none⟩ "mongodb://db/?ssl=true" ⟨some 0⟩ 1).s = none ∧
    (createMgoSession ⟨none, none, none, none⟩ "mongodb://db/?ssl=true" ⟨some 0⟩ 1).err = none ∧
    (createMgoSession ⟨none, none, none, none⟩ "mongodb://db/?ssl=true" ⟨some 0⟩ 1).panic =
      none ∧
    (run maxPool "mongodb://db/?ssl=true" (Globals.init ⟨some 0⟩ 1)
        [Call.get ⟨none, none, none, none⟩]).map (fun t => (t.globals, t.panic)) =
      some (⟨⟨some 0⟩, [⟨none⟩], 0, 1⟩, none) ∧
    GetCustomPoolSession maxPool ⟨none, none, none, none⟩ "mongodb://db/?ssl=true"
        ⟨⟨some 0⟩, [⟨none⟩], 0, 1⟩ =
      some ⟨⟨some 0, none⟩, ⟨⟨some 0⟩, [⟨none⟩], 0, 1⟩,
        [Event.health ⟨none⟩, Event.close ⟨none⟩, Event.create], none⟩ ∧
    GetCustomPoolSession maxPool ⟨none, some "EOF", none, none⟩ "mongodb://db/?ssl=true"
        ⟨⟨some 1⟩, [⟨some 0⟩], 0, 2⟩ =
      some ⟨⟨some 0, none⟩, ⟨⟨some 1⟩, [⟨none⟩], 0, 2⟩,
        [Event.health ⟨some 0⟩, Event.ping 0, Event.close ⟨some 0⟩, Event.mgoClose 0,
          Event.create], none⟩ := by
  decide

/-! ### Flushing -/

theorem closed_foldl_seen (late : List Nat) (pool : List Session) (is : List Nat)
    (acc : List Event) :
    (is.foldl (fun ev i => ev ++ (seenSlot late pool i).Close) acc).filterMap Event.closed =
      acc.filterMap Event.closed ++ is.map (seenSlot late pool) := by
  induction is generalizing acc with
  | nil => simp
  | cons i is ih =>
    rw [List.foldl_cons, ih, List.filterMap_append, closed_Close]
    simp

/-- The sessions on which `FlushPull` calls `Close()`: for each slot, the slot
that the range variable holds when its goroutine runs. -/
theorem closed_FlushPull (late : List Nat) (g : Globals) :
    (FlushPull late g).2.filterMap Event.closed =
      (List.range g.pool.length).map (seenSlot late g.pool) := by
  simp only [FlushPull]
  rw [closed_foldl_seen]
  simp

/-- With one range variable per iteration every goroutine closes its own slot. -/
theorem seenSlot_own (pool : List Session) (i : Nat) (hi : i < pool.length) :
    seenSlot [] pool i = pool[i] := by
  have hmin : min i (pool.length - 1) = i := Nat.min_eq_left (by omega)
  simp only [seenSlot, List.getD_nil, add_zero, hmin]
  rw [List.getD_eq_getElem _ _ hi]

/-- With at most one slot in the pool every goroutine closes its own slot. -/
theorem seenSlot_single (late : List Nat) (pool : List Session) (i : Nat)
    (hlen : pool.length ≤ 1) (hi : i < pool.length) : seenSlot late pool i = pool[i] := by
  have hmin : min (i + late.getD i 0) (pool.length - 1) = i := by omega
  simp only [seenSlot, hmin]
  rw [List.getD_eq_getElem _ _ hi]

theorem map_range_getElem (pool : List Session) (f : Nat → Session)
    (hf : ∀ i (hi : i < pool.length), f i = pool[i]) :
    (List.range pool.length).map f = pool := by
  apply List.ext_getElem
  · simp
  · intro i h1 h2
    simp only [List.getElem_map, List.getElem_range]
    exact hf i h2

/-- What `createMgoSession` answers does not depend on the driver state, apart
from the identity of the session it creates. -/
theorem createMgoSession_sim (env : Env) (mongoURL : String) (session : Session)
    (n n' : MgoSession) :
    (createMgoSession env mongoURL session n).err =
        (createMgoSession env mongoURL session n').err ∧
      (createMgoSession env mongoURL session n).s.isSome =
        (createMgoSession env mongoURL session n').s.isSome ∧
      (createMgoSession env mongoURL session n).panic =
        (createMgoSession env mongoURL session n').panic := by
  unfold createMgoSession NewSessionSsl newSession mgoDial
  by_cases hc : stringsContains mongoURL "ssl=" = true
  · by_cases hs : session.session = none
    · cases hp : env.parse with
      | some p => simp [hc, hs]
      | none =>
        cases ht : env.tls with
        | some p => simp [hc, hs]
        | none => cases hd : env.dial <;> simp [hc, hs]
    · simp [hc, hs]
  · cases hd : env.dial <;> simp [hc]

theorem Health_sim (env : Env) (s s' : Session) (h : s.session.isSome = s'.session.isSome) :
    (s.Health env).1 = (s'.Health env).1 := by
  unfold Session.Health
  cases hs : s.session <;> cases hs' : s'.session <;> simp [hs, hs'] at h ⊢

/-- From similar states, `GetCustomPoolSession` runs out of the pool in both or
in neither, and then returns the same value or ends in the same panic, leaving
similar states. -/
theorem get_sim (maxPool : Int) (env : Env) (mongoURL : String) (g g' : Globals)
    (hsim : Sim g g') :
    (GetCustomPoolSession maxPool env mongoURL g = none ∧
      GetCustomPoolSession maxPool env mongoURL g' = none) ∨
    ∃ d d', GetCustomPoolSession maxPool env mongoURL g = some d ∧
      GetCustomPoolSession maxPool env mongoURL g' = some d' ∧
      d.ret = d'.ret ∧ d.panic = d'.panic ∧ Sim d.globals d'.globals := by
  obtain ⟨hs, hl, hp⟩ := hsim
  have hlen : g.pool.length = g'.pool.length := by
    have := congrArg List.length hp
    simpa using this
  have hc := createMgoSession_sim env mongoURL g.session g.nextSession g'.nextSession
  rw [hs] at hc
  by_cases hgrow : (g.pool.length : Int) ≤ maxPool
  · right
    have hgrow' : (g'.pool.length : Int) ≤ maxPool := by rw [← hlen]; exact hgrow
    rw [get_grow maxPool env mongoURL g hgrow, get_grow maxPool env mongoURL g' hgrow', hs]
    cases hpan : (createMgoSession env mongoURL g'.session g.nextSession).panic with
    | some p =>
      have hpan' := hc.2.2 ▸ hpan
      rw [hpan']
      exact ⟨_, _, rfl, rfl, rfl, rfl, rfl, by simp [hlen], hp⟩
    | none =>
      have hpan' := hc.2.2 ▸ hpan
      rw [hpan']
      cases herr : (createMgoSession env mongoURL g'.session g.nextSession).err with
      | some e =>
        have herr' := hc.1 ▸ herr
        rw [herr']
        exact ⟨_, _, rfl, rfl, rfl, rfl, rfl, by simp [hlen], hp⟩
      | none =>
        have herr' := hc.1 ▸ herr
        rw [herr']
        refine ⟨_, _, rfl, rfl, by simp [hlen], rfl, rfl, by simp [hlen], ?_⟩
        simp only [List.map_append, List.map_cons, List.map_nil, hp, hc.2.1]
  · have hfull : maxPool < (g.pool.length : Int) := not_le.mp hgrow
    have hfull' : maxPool < (g'.pool.length : Int) := by rw [← hlen]; exact hfull
    have hnp : nextPos maxPool g = nextPos maxPool g' := by unfold nextPos; rw [hl]
    by_cases hrange : 0 ≤ nextPos maxPool g ∧ nextPos maxPool g < (g.pool.length : Int)
    · right
      have hi : ((nextPos maxPool g).toNat : Int) = nextPos maxPool g :=
        Int.toNat_of_nonneg hrange.1
      have hlt : (nextPos maxPool g).toNat < g.pool.length := by
        have : ((nextPos maxPool g).toNat : Int) < (g.pool.length : Int) := by omega
        exact_mod_cast this
      have hlt' : (nextPos maxPool g).toNat < g'.pool.length := by rw [← hlen]; exact hlt
      have hold := List.getElem?_eq_getElem hlt
      have hold' := List.getElem?_eq_getElem hlt'
      have hsome : (g.pool[(nextPos maxPool g).toNat]).session.isSome =
          (g'.pool[(nextPos maxPool g).toNat]).session.isSome := by
        have h1 := congrArg (fun l => l[(nextPos maxPool g).toNat]?) hp
        simp only [List.getElem?_map, hold, hold', Option.map_some', Option.some.injEq] at h1
        exact h1
      have hH := Health_sim env _ _ hsome
      rw [get_cycle maxPool env mongoURL g hfull _ _ hi hold,
        get_cycle maxPool env mongoURL g' hfull' _ _ (hi.trans hnp) hold', ← hH, hs]
      cases (g.pool[(nextPos maxPool g).toNat].Health env).1 with
      | none => exact ⟨_, _, rfl, rfl, rfl, rfl, rfl, rfl, hp⟩
      | some e =>
        cases hpan : (createMgoSession env mongoURL g'.session g.nextSession).panic with
        | some p =>
          have hpan' := hc.2.2 ▸ hpan
          rw [hpan']
          exact ⟨_, _, rfl, rfl, rfl, rfl, rfl, rfl, hp⟩
        | none =>
          have hpan' := hc.2.2 ▸ hpan
          rw [hpan']
          refine ⟨_, _, rfl, rfl, by simp [hc.1], rfl, rfl, rfl, ?_⟩
          simp only [List.map_set, hp, hc.2.1]
    · left
      have hrange' : ¬ (0 ≤ nextPos maxPool g' ∧ nextPos maxPool g' < (g'.pool.length : Int)) := by
        rw [← hnp, ← hlen]; exact hrange
      have hgrow' : ¬ ((g'.pool.length : Int) ≤ maxPool) := not_le.mpr hfull'
      unfold nextPos at hrange hrange'
      constructor
      · simp only [GetCustomPoolSession, hgrow, if_false, hrange]
      · simp only [GetCustomPoolSession, hgrow', if_false, hrange']

theorem foldlM_sim (maxPool : Int) (mongoURL : String) (calls : List Call) (t t' : Trace)
    (hrets : t.rets = t'.rets) (hpanic : t.panic = t'.panic) (hsim : Sim t.globals t'.globals) :
    (calls.foldlM (step maxPool mongoURL) t).map Trace.observe =
      (calls.foldlM (step maxPool mongoURL) t').map Trace.observe := by
  induction calls generalizing t t' with
  | nil =>
    obtain ⟨_, hl, hp⟩ := hsim
    have hlen : t.globals.pool.length = t'.globals.pool.length := by
      have := congrArg List.length hp
      simpa using this
    simp [Trace.observe, hrets, hl, hlen, hpanic]
  | cons c cs ih =>
    simp only [List.foldlM_cons, Option.bind_eq_bind]
    cases ht : t.panic with
    | some p =>
      rw [step_panicked maxPool mongoURL t c p ht,
        step_panicked maxPool mongoURL t' c p (hpanic ▸ ht)]
      exact ih t t' hrets hpanic hsim
    | none =>
      have ht' : t'.panic = none := hpanic ▸ ht
      cases c with
      | get env =>
        rcases get_sim maxPool env mongoURL t.globals t'.globals hsim with
          ⟨h1, h2⟩ | ⟨d, d', h1, h2, hret, hpan, hs⟩
        · simp [step, ht, ht', h1, h2]
        · rw [step_get maxPool mongoURL t env d ht h1, step_get maxPool mongoURL t' env d' ht' h2]
          simp only [Option.some_bind]
          exact ih _ _ (by simp [hrets, hret, hpan]) hpan hs
      | flush late =>
        simp only [step, ht, ht', Option.some_bind]
        exact ih _ _ hrets rfl ⟨hsim.1, rfl, rfl⟩

/-- What `FlushPull` leaves is the start-up state of the pool, `pool` empty and
`looper` zero, and any sequence of calls run after it returns the same values,
with the same slot count, cursor and panic, as the same sequence run on a pool
at start-up, whatever sessions the driver has created before.  It calls
`Close()` as many times as there are slots; each goroutine closes its own slot
when every iteration has its own range variable or when the pool holds at most
one slot. -/
theorem FlushPull_resets (maxPool : Int) (mongoURL : String) (late : List Nat) (g : Globals)
    (n : MgoSession) (calls : List Call) :
    (FlushPull late g).1.pool = [] ∧ (FlushPull late g).1.looper = 0 ∧
    (FlushPull late g).1 = Globals.init g.session g.nextSession ∧
    ((FlushPull late g).2.filterMap Event.closed).length = g.pool.length ∧
    (FlushPull [] g).2.filterMap Event.closed = g.pool ∧
    (g.pool.length ≤ 1 → (FlushPull late g).2.filterMap Event.closed = g.pool) ∧
    (run maxPool mongoURL (FlushPull late g).1 calls).map Trace.observe =
      (run maxPool mongoURL (Globals.init g.session n) calls).map Trace.observe := by
  refine ⟨rfl, rfl, rfl, ?_, ?_, fun hlen => ?_, ?_⟩
  · rw [closed_FlushPull]
    simp
  · rw [closed_FlushPull]
    exact map_range_getElem g.pool _ (fun i hi => seenSlot_own g.pool i hi)
  · rw [closed_FlushPull]
    exact map_range_getElem g.pool _ (fun i hi => seenSlot_single late g.pool i hlen hi)
  · exact foldlM_sim maxPool mongoURL calls _ _ rfl rfl ⟨rfl, rfl, rfl⟩

/-- C10, on a pool that holds the two sessions `0` and `1`, and on one that
holds the three sessions `0`, `1` and `2`, when the goroutines started by
`go p.Close()` run after the loop has moved on to its last slot: `Close()` is
called on the last session once per slot and never on the others.  The pool is
left empty with the cursor at zero. -/
theorem FlushPull_closes_last :
    (FlushPull [1, 0] ⟨⟨none⟩, [⟨some 0⟩, ⟨some 1⟩], 0, 2⟩).2 =
      [Event.close ⟨some 1⟩, Event.mgoClose 1, Event.close ⟨some 1⟩, Event.mgoClose 1] ∧
    (FlushPull [1, 0] ⟨⟨none⟩, [⟨some 0⟩, ⟨some 1⟩], 0, 2⟩).2.filterMap Event.closed =
      [⟨some 1⟩, ⟨some 1⟩] ∧
    (FlushPull [2, 1, 0] ⟨⟨none⟩, [⟨some 0⟩, ⟨some 1⟩, ⟨some 2⟩], 2, 3⟩).2.filterMap
      Event.closed = [⟨some 2⟩, ⟨some 2⟩, ⟨some 2⟩] ∧
    (FlushPull [1, 0] ⟨⟨none⟩, [⟨some 0⟩, ⟨some 1⟩], 0, 2⟩).1 = Globals.init ⟨none⟩ 2 := by
  decide

/-! ### Failed creations -/

theorem rets_foldlM (maxPool : Int) (mongoURL : String) (calls : List Call) (t t' : Trace)
    (h : calls.foldlM (step maxPool mongoURL) t = some t') : ∃ l, t'.rets = t.rets ++ l := by
  induction calls generalizing t with
  | nil =>
    simp only [List.foldlM_nil, Option.pure_def, Option.some.injEq] at h
    subst h
    exact ⟨[], by simp⟩
  | cons c cs ih =>
    simp only [List.foldlM_cons, Option.bind_eq_bind] at h
    cases hs : step maxPool mongoURL t c with
    | none => rw [hs] at h; simp at h
    | some t1 =>
      rw [hs] at h
      obtain ⟨l, hl⟩ := ih t1 h
      cases ht : t.panic with
      | some p =>
        rw [step_panicked maxPool mongoURL t c p ht] at hs
        simp only [Option.some.injEq] at hs
        subst hs
        exact ⟨l, hl⟩
      | none =>
        cases c with
        | get env =>
          cases hg : GetCustomPoolSession maxPool env mongoURL t.globals with
          | none => simp [step, ht, hg] at hs
          | some d =>
            rw [step_get maxPool mongoURL t env d ht hg] at hs
            simp only [Option.some.injEq] at hs
            subst hs
            by_cases hp : d.panic = none
            · simp only [hp, if_true] at hl
              exact ⟨d.ret :: l, by simp [hl]⟩
            · simp only [hp, if_false] at hl
              exact ⟨l, hl⟩
        | flush late =>
          simp only [step, ht, Option.some.injEq] at hs
          subst hs
          exact ⟨l, hl⟩

/-- In a full pool, a call that panics or returns another slot than `i` leaves
slot `i` as it was and the pool full. -/
theorem get_other_slot (maxPool : Int) (env : Env) (mongoURL : String) (g : Globals) (d : Done)
    (i : Nat) (hinv : Inv maxPool g) (hfull : maxPool < (g.pool.length : Int))
    (hd : GetCustomPoolSession maxPool env mongoURL g = some d)
    (hne : d.panic ≠ none ∨ d.ret.ptr ≠ some i) :
    d.globals.pool[i]? = g.pool[i]? ∧ d.globals.pool.length = g.pool.length := by
  obtain ⟨j, old, hj, hold⟩ := nextPos_valid maxPool g hinv hfull
  rw [get_cycle maxPool env mongoURL g hfull j old hj hold] at hd
  cases hh : (old.Health env).1 with
  | none =>
    rw [hh] at hd
    simp only [Option.some.injEq] at hd
    subst hd
    exact ⟨rfl, rfl⟩
  | some e =>
    rw [hh] at hd
    cases hp : (createMgoSession env mongoURL g.session g.nextSession).panic with
    | some p =>
      rw [hp] at hd
      simp only [Option.some.injEq] at hd
      subst hd
      exact ⟨rfl, rfl⟩
    | none =>
      rw [hp] at hd
      simp only [Option.some.injEq] at hd
      subst hd
      have hji : j ≠ i := by
        rcases hne with hne | hne
        · exact absurd rfl hne
        · exact fun h => hne (by rw [h])
      exact ⟨List.getElem?_set_ne hji, List.length_set _ _ _⟩

theorem unset_kept (maxPool : Int) (mongoURL : String) (i : Nat)
    (mid : List Env) (t t' : Trace) (hinv : Inv maxPool t.globals)
    (hfull : maxPool < (t.globals.pool.length : Int))
    (hrun : (mid.map Call.get).foldlM (step maxPool mongoURL) t = some t')
    (hrets : ∀ r ∈ t'.rets, r.ptr ≠ some i) :
    Inv maxPool t'.globals ∧ maxPool < (t'.globals.pool.length : Int) ∧
      t'.globals.pool[i]? = t.globals.pool[i]? := by
  induction mid generalizing t with
  | nil =>
    simp only [List.map_nil, List.foldlM_nil, Option.pure_def, Option.some.injEq] at hrun
    subst hrun
    exact ⟨hinv, hfull, rfl⟩
  | cons env envs ih =>
    cases ht : t.panic with
    | some p =>
      rw [foldlM_panicked maxPool mongoURL _ t p ht] at hrun
      simp only [Option.some.injEq] at hrun
      subst hrun
      exact ⟨hinv, hfull, rfl⟩
    | none =>
      simp only [List.map_cons, List.foldlM_cons, Option.bind_eq_bind] at hrun
      cases hg : GetCustomPoolSession maxPool env mongoURL t.globals with
      | none => simp [step, ht, hg] at hrun
      | some d =>
        rw [step_get maxPool mongoURL t env d ht hg] at hrun
        simp only [Option.some_bind] at hrun
        obtain ⟨l, hl⟩ := rets_foldlM maxPool mongoURL _ _ _ hrun
        have hne : d.panic ≠ none ∨ d.ret.ptr ≠ some i := by
          by_cases hp : d.panic = none
          · right
            simp only [hp, if_true] at hl
            exact hrets d.ret (by rw [hl]; simp)
          · left; exact hp
        obtain ⟨hslot, hlen⟩ :=
          get_other_slot maxPool env mongoURL t.globals d i hinv hfull hg hne
        have hinv1 := inv_get maxPool env mongoURL t.globals d hinv hg
        obtain ⟨h1, h2, h3⟩ := ih _ hinv1 (by simp only [hlen]; exact hfull) hrun
        exact ⟨h1, h2, by rw [h3]; exact hslot⟩

/-- In a full pool, a call that returns a slot holding no session attempts a
creation, and when the creation yields a session the call installs it in the
slot and returns a nil error. -/
theorem get_unset_slot (maxPool : Int) (env : Env) (mongoURL : String) (g : Globals)
    (i : Nat) (hinv : Inv maxPool g) (hfull : maxPool < (g.pool.length : Int))
    (hslot : g.pool[i]? = some ⟨none⟩) :
    ∃ d, GetCustomPoolSession maxPool env mongoURL g = some d ∧
      (d.ret.ptr = some i →
        Event.create ∈ d.events ∧
        ∀ h, (createMgoSession env mongoURL g.session g.nextSession).s = some h →
          d.ret = ⟨some i, none⟩ ∧ d.panic = none ∧ d.globals.pool[i]? = some ⟨some h⟩) := by
  obtain ⟨j, old, hj, hold⟩ := nextPos_valid maxPool g hinv hfull
  have hget := get_cycle maxPool env mongoURL g hfull j old hj hold
  cases hh : (old.Health env).1 with
  | none =>
    rw [hh] at hget
    refine ⟨_, hget, fun hptr => ?_⟩
    simp only [Option.some.injEq] at hptr
    subst hptr
    rw [hslot] at hold
    simp only [Option.some.injEq] at hold
    subst hold
    simp [Session.Health] at hh
  | some e =>
    rw [hh] at hget
    cases hp : (createMgoSession env mongoURL g.session g.nextSession).panic with
    | some p =>
      rw [hp] at hget
      exact ⟨_, hget, fun hptr => by simp at hptr⟩
    | none =>
      rw [hp] at hget
      refine ⟨_, hget, fun hptr => ?_⟩
      simp only [Option.some.injEq] at hptr
      subst hptr
      have hlt : j < g.pool.length := (List.getElem?_eq_some.mp hold).1
      refine ⟨?_, fun h hs => ?_⟩
      · simp only [List.mem_append]
        exact Or.inr (createMgoSession_create_mem env mongoURL g.session g.nextSession)
      · obtain ⟨_, _, herr, _⟩ :=
          (createMgoSession_fresh env mongoURL g.session g.nextSession).2 h hs
        refine ⟨by simp only [herr], rfl, ?_⟩
        simp only [hs]
        rw [List.getElem?_set_self hlt]

/-- C9, as stated, fails on the URL `mongodb://db/?ssl=true` with `maxPool = 0`:
at start-up, with the package variable `session` unset, a creation whose TLS
dial fails does not make `GetCustomPoolSession` return an error; the call ends
in the panic of `DialServer` and returns nothing. -/
theorem creation_failure_refuted :
    ¬ (∀ (env : Env) (g : Globals), Reachable maxPool "mongodb://db/?ssl=true" g →
        ((createMgoSession env "mongodb://db/?ssl=true" g.session g.nextSession).err ≠ none ∨
          (createMgoSession env "mongodb://db/?ssl=true" g.session g.nextSession).panic ≠
            none) →
        ∃ d, GetCustomPoolSession maxPool env "mongodb://db/?ssl=true" g = some d ∧
          d.panic = none ∧ d.ret.err ≠ none) := by
  intro h
  obtain ⟨d, hd, hp, _⟩ := h ⟨none, none, none, some "connection refused"⟩ (Globals.init ⟨none⟩ 0)
    ⟨⟨none⟩, 0, [], _, rfl, rfl, rfl⟩ (Or.inr (by decide))
  have hd' : GetCustomPoolSession maxPool ⟨none, none, none, some "connection refused"⟩
      "mongodb://db/?ssl=true" (Globals.init ⟨none⟩ 0) =
      some ⟨⟨none, none⟩, ⟨⟨none⟩, [], 0, 0⟩, [Event.create, Event.dial],
        some "connection refused"⟩ := by decide
  rw [hd'] at hd
  simp only [Option.some.injEq] at hd
  subst hd
  simp at hp

/-- C9, amended: in a reachable state, a call during which `createMgoSession`
returns the error `e` completes without a panic.  While the pool still grows it
returns `nil, e` and appends no slot, and the next call attempts a creation
again and, when that yields a session, appends it and returns it with a nil
error.  Once the pool is full and the selected slot `i` is unhealthy, it returns
`e`, slot `i` holds no session, so `Health()` of it is an error; after any calls
that panic or return other slots, slot `i` still holds no session, and a call
that returns slot `i` attempts a creation and, when that yields a session,
installs it in slot `i` and returns it with a nil error.  A slot that holds a
session answers `Health()` with the ping. -/
theorem creation_failure_retried (maxPool : Int) (env : Env) (mongoURL : String) (g : Globals)
    (e : String) (hmax : 0 ≤ maxPool) (hr : Reachable maxPool mongoURL g)
    (hfail : (createMgoSession env mongoURL g.session g.nextSession).err = some e) :
    ∃ d, GetCustomPoolSession maxPool env mongoURL g = some d ∧ d.panic = none ∧
      ((g.pool.length : Int) ≤ maxPool →
        d.ret = ⟨none, some e⟩ ∧ d.globals.pool = g.pool ∧
        ∀ env2, ∃ d2, GetCustomPoolSession maxPool env2 mongoURL d.globals = some d2 ∧
          Event.create ∈ d2.events ∧
          ∀ h, (createMgoSession env2 mongoURL d.globals.session d.globals.nextSession).s =
              some h →
            d2.ret = ⟨some g.pool.length, none⟩ ∧ d2.panic = none ∧
            d2.globals.pool = g.pool ++ [⟨some h⟩] ∧
            ∀ env3, ((⟨some h⟩ : Session).Health env3).1 = env3.ping) ∧
      (maxPool < (g.pool.length : Int) →
        ∀ (i : Nat) (old : Session), (i : Int) = nextPos maxPool g → g.pool[i]? = some old →
          (old.Health env).1 ≠ none →
          d.ret = ⟨some i, some e⟩ ∧ d.globals.pool = g.pool.set i ⟨none⟩ ∧
          (∀ env3, ((⟨none⟩ : Session).Health env3).1 ≠ none) ∧
          ∀ (mid : List Env) (t : Trace),
            run maxPool mongoURL d.globals (mid.map Call.get) = some t →
            (∀ r ∈ t.rets, r.ptr ≠ some i) →
            t.globals.pool[i]? = some ⟨none⟩ ∧
            ∀ env2, ∃ d2, GetCustomPoolSession maxPool env2 mongoURL t.globals = some d2 ∧
              (d2.ret.ptr = some i →
                Event.create ∈ d2.events ∧
                ∀ h, (createMgoSession env2 mongoURL t.globals.session
                    t.globals.nextSession).s = some h →
                  d2.ret = ⟨some i, none⟩ ∧ d2.panic = none ∧
                  d2.globals.pool[i]? = some ⟨some h⟩ ∧
                  ∀ env3, ((⟨some h⟩ : Session).Health env3).1 = env3.ping)) := by
  have hinv := inv_of_reachable maxPool mongoURL hmax g hr
  obtain ⟨hnone, hnopanic⟩ :=
    (createMgoSession_err env mongoURL g.session g.nextSession).1 e hfail
  obtain ⟨d, hd⟩ := get_completes maxPool env mongoURL g hinv
  have hdp : d.panic = none := by
    by_cases hgrow : (g.pool.length : Int) ≤ maxPool
    · rw [get_grow maxPool env mongoURL g hgrow, hnopanic, hfail] at hd
      simp only [Option.some.injEq] at hd
      subst hd
      rfl
    · have hfull : maxPool < (g.pool.length : Int) := not_le.mp hgrow
      obtain ⟨i, old, hi, hold⟩ := nextPos_valid maxPool g hinv hfull
      rw [get_cycle maxPool env mongoURL g hfull i old hi hold, hnopanic] at hd
      cases hh : (old.Health env).1 with
      | none =>
        rw [hh] at hd
        simp only [Option.some.injEq] at hd
        subst hd
        rfl
      | some e' =>
        rw [hh] at hd
        simp only [Option.some.injEq] at hd
        subst hd
        rfl
  refine ⟨d, hd, hdp, fun hgrow => ?_, fun hfull i old hi hold hbad => ?_⟩
  · rw [get_grow maxPool env mongoURL g hgrow, hnopanic, hfail] at hd
    simp only [Option.some.injEq] at hd
    subst hd
    refine ⟨rfl, rfl, fun env2 => ?_⟩
    have hgrow2 : ((g.pool.length : Nat) : Int) ≤ maxPool := hgrow
    have hget2 := get_grow maxPool env2 mongoURL
      ⟨g.session, g.pool, g.pool.length,
        (createMgoSession env mongoURL g.session g.nextSession).nextSession⟩ hgrow2
    have hfresh2 := createMgoSession_fresh env2 mongoURL g.session
        (createMgoSession env mongoURL g.session g.nextSession).nextSession
    cases hp2 : (createMgoSession env2 mongoURL g.session
        (createMgoSession env mongoURL g.session g.nextSession).nextSession).panic with
    | some p2 =>
      simp only [hp2] at hget2
      refine ⟨_, hget2, createMgoSession_create_mem _ _ _ _, fun h hs => ?_⟩
      have := (hfresh2.2 h hs).2.2.2
      rw [hp2] at this
      simp at this
    | none =>
      simp only [hp2] at hget2
      cases herr2 : (createMgoSession env2 mongoURL g.session
          (createMgoSession env mongoURL g.session g.nextSession).nextSession).err with
      | some e2 =>
        simp only [herr2] at hget2
        refine ⟨_, hget2, createMgoSession_create_mem _ _ _ _, fun h hs => ?_⟩
        have := (hfresh2.2 h hs).2.2.1
        rw [herr2] at this
        simp at this
      | none =>
        simp only [herr2] at hget2
        refine ⟨_, hget2, createMgoSession_create_mem _ _ _ _, fun h hs => ?_⟩
        simp only at hs
        exact ⟨rfl, rfl, by simp only [hs], fun env3 => rfl⟩
  · have hget := get_cycle maxPool env mongoURL g hfull i old hi hold
    cases hh : (old.Health env).1 with
    | none => exact absurd hh hbad
    | some e' =>
      rw [hh, hnopanic, hd] at hget
      simp only [Option.some.injEq] at hget
      have hinv1 := inv_get maxPool env mongoURL g d hinv hd
      subst hget
      have hlt : i < g.pool.length := (List.getElem?_eq_some.mp hold).1
      refine ⟨by simp only [hfail], by simp only [hnone],
        fun env3 => by simp [Session.Health], fun mid t hrun hrets => ?_⟩
      have hfull1 : maxPool < ((g.pool.set i ⟨(createMgoSession env mongoURL g.session
          g.nextSession).s⟩).length : Int) := by
        rw [List.length_set]; exact hfull
      obtain ⟨hinvt, hfullt, hslot⟩ := unset_kept maxPool mongoURL i mid _ t hinv1 hfull1
        hrun hrets
      have hslot' : t.globals.pool[i]? = some ⟨none⟩ := by
        rw [hslot]
        simp only [hnone]
        rw [List.getElem?_set_self hlt]
      refine ⟨hslot', fun env2 => ?_⟩
      obtain ⟨d2, hd2, hrest⟩ :=
        get_unset_slot maxPool env2 mongoURL t.globals i hinvt hfullt hslot'
      refine ⟨d2, hd2, fun hptr => ?_⟩
      obtain ⟨hc, hinst⟩ := hrest hptr
      exact ⟨hc, fun h hs =>
        ⟨(hinst h hs).1, (hinst h hs).2.1, (hinst h hs).2.2, fun env3 => rfl⟩⟩

theorem creation_failure_retried_witness :
    ∃ d, GetCustomPoolSession 0 ⟨some "no reachable servers", some "EOF", none, none⟩ "mongodb://db" (⟨⟨none⟩, [⟨some 0⟩], 0, 1⟩ : Globals) = some d ∧ d.panic = none ∧
      (((⟨⟨none⟩, [⟨some 0⟩], 0, 1⟩ : Globals).pool.length : Int) ≤ 0 →
        d.ret = ⟨none, some "no reachable servers"⟩ ∧ d.globals.pool = (⟨⟨none⟩, [⟨some 0⟩], 0, 1⟩ : Globals).pool ∧
        ∀ env2, ∃ d2, GetCustomPoolSession 0 env2 "mongodb://db" d.globals = some d2 ∧
          Event.create ∈ d2.events ∧
          ∀ h, (createMgoSession env2 "mongodb://db" d.globals.session d.globals.nextSession).s =
              some h →
            d2.ret = ⟨some (⟨⟨none⟩, [⟨some 0⟩], 0, 1⟩ : Globals).pool.length, none⟩ ∧ d2.panic = none ∧
            d2.globals.pool = (⟨⟨none⟩, [⟨some 0⟩], 0, 1⟩ : Globals).pool ++ [⟨some h⟩] ∧
            ∀ env3, ((⟨some h⟩ : Session).Health env3).1 = env3.ping) ∧
      (0 < ((⟨⟨none⟩, [⟨some 0⟩], 0, 1⟩ : Globals).pool.length : Int) →
        ∀ (i : Nat) (old : Session), (i : Int) = nextPos 0 (⟨⟨none⟩, [⟨some 0⟩], 0, 1⟩ : Globals) → (⟨⟨none⟩, [⟨some 0⟩], 0, 1⟩ : Globals).pool[i]? = some old →
          (old.Health ⟨some "no reachable servers", some "EOF", none, none⟩).1 ≠ none →
          d.ret = ⟨some i, some "no reachable servers"⟩ ∧ d.globals.pool = (⟨⟨none⟩, [⟨some 0⟩], 0, 1⟩ : Globals).pool.set i ⟨none⟩ ∧
          (∀ env3, ((⟨none⟩ : Session).Health env3).1 ≠ none) ∧
          ∀ (mid : List Env) (t : Trace),
            run 0 "mongodb://db" d.globals (mid.map Call.get) = some t →
            (∀ r ∈ t.rets, r.ptr ≠ some i) →
            t.globals.pool[i]? = some ⟨none⟩ ∧
            ∀ env2, ∃ d2, GetCustomPoolSession 0 env2 "mongodb://db" t.globals = some d2 ∧
              (d2.ret.ptr = some i →
                Event.create ∈ d2.events ∧
                ∀ h, (createMgoSession env2 "mongodb://db" t.globals.session
                    t.globals.nextSession).s = some h →
                  d2.ret = ⟨some i, none⟩ ∧ d2.panic = none ∧
                  d2.globals.pool[i]? = some ⟨some h⟩ ∧
                  ∀ env3, ((⟨some h⟩ : Session).Health env3).1 = env3.ping)) :=
  creation_failure_retried 0 ⟨some "no reachable servers", some "EOF", none, none⟩ "mongodb://db"
    ⟨⟨none⟩, [⟨some 0⟩], 0, 1⟩ "no reachable servers" (by decide)
    ⟨⟨none⟩, 0, [Call.get ⟨none, none, none, none⟩], _, rfl, rfl, rfl⟩ rfl

/-! ### Cursor validity -/

theorem foldlM_completes (maxPool : Int) (mongoURL : String) (hmax : 0 ≤ maxPool)
    (calls : List Call) (t : Trace) (hinv : Inv maxPool t.globals) :
    ∃ t', calls.foldlM (step maxPool mongoURL) t = some t' := by
  induction calls generalizing t with
  | nil => exact ⟨t, rfl⟩
  | cons c cs ih =>
    have hstep : ∃ t1, step maxPool mongoURL t c = some t1 := by
      cases ht : t.panic with
      | some p => exact ⟨t, step_panicked maxPool mongoURL t c p ht⟩
      | none =>
        cases c with
        | get env =>
          obtain ⟨d, hd⟩ := get_completes maxPool env mongoURL t.globals hinv
          exact ⟨_, step_get maxPool mongoURL t env d ht hd⟩
        | flush late =>
          exact ⟨⟨t.rets, t.events ++ (FlushPull late t.globals).2, (FlushPull late t.globals).1,
            none⟩, by simp only [step, ht]⟩
    obtain ⟨t1, ht1⟩ := hstep
    obtain ⟨t', ht'⟩ := ih t1 (inv_step maxPool mongoURL t t1 c hmax hinv ht1)
    exact ⟨t', by simp only [List.foldlM_cons, Option.bind_eq_bind, ht1, Option.some_bind, ht']⟩

/-- The index that a call returns lies in the pool it leaves; while the pool
grows it is the index of the slot just appended, and once the pool is full the
selected index lies in the pool the call found, whose length the call does not
change, and it is the index returned unless the call panics.  A call that
panics returns nothing and leaves the pool as it was. -/
theorem get_index_valid (maxPool : Int) (env : Env) (mongoURL : String) (g : Globals) (d : Done)
    (hinv : Inv maxPool g) (hd : GetCustomPoolSession maxPool env mongoURL g = some d) :
    (∀ i, d.ret.ptr = some i → i < d.globals.pool.length) ∧
    ((g.pool.length : Int) ≤ maxPool →
      ∀ i, d.ret.ptr = some i → i = g.pool.length ∧ d.globals.pool.length = g.pool.length + 1) ∧
    (maxPool < (g.pool.length : Int) →
      0 ≤ nextPos maxPool g ∧ nextPos maxPool g < (g.pool.length : Int) ∧
      (d.panic = none → d.ret.ptr = some (nextPos maxPool g).toNat) ∧
      d.globals.pool.length = g.pool.length) ∧
    (d.panic ≠ none → d.ret = ⟨none, none⟩ ∧ d.globals.pool = g.pool) := by
  by_cases hgrow : (g.pool.length : Int) ≤ maxPool
  · have hnot : ¬ (maxPool < (g.pool.length : Int)) := not_lt.mpr hgrow
    rw [get_grow maxPool env mongoURL g hgrow] at hd
    cases hp : (createMgoSession env mongoURL g.session g.nextSession).panic with
    | some p =>
      rw [hp] at hd
      simp only [Option.some.injEq] at hd
      subst hd
      exact ⟨fun i hi => by simp at hi, fun _ i hi => by simp at hi, fun h => absurd h hnot,
        fun _ => ⟨rfl, rfl⟩⟩
    | none =>
      rw [hp] at hd
      cases herr : (createMgoSession env mongoURL g.session g.nextSession).err with
      | some e =>
        rw [herr] at hd
        simp only [Option.some.injEq] at hd
        subst hd
        exact ⟨fun i hi => by simp at hi, fun _ i hi => by simp at hi, fun h => absurd h hnot,
          fun h => absurd rfl h⟩
      | none =>
        rw [herr] at hd
        simp only [Option.some.injEq] at hd
        subst hd
        refine ⟨fun i hi => ?_, fun _ i hi => ?_, fun h => absurd h hnot, fun h => absurd rfl h⟩
        · simp only [Option.some.injEq] at hi
          subst hi
          simp
        · simp only [Option.some.injEq] at hi
          subst hi
          simp
  · have hfull : maxPool < (g.pool.length : Int) := not_le.mp hgrow
    obtain ⟨i, old, hi, hold⟩ := nextPos_valid maxPool g hinv hfull
    have hlt : i < g.pool.length := (List.getElem?_eq_some.mp hold).1
    have hnat : (nextPos maxPool g).toNat = i := by rw [← hi]; exact Int.toNat_ofNat i
    have hrange : 0 ≤ nextPos maxPool g ∧ nextPos maxPool g < (g.pool.length : Int) := by
      rw [← hi]
      exact ⟨Int.ofNat_nonneg i, by exact_mod_cast hlt⟩
    rw [get_cycle maxPool env mongoURL g hfull i old hi hold] at hd
    cases hh : (old.Health env).1 with
    | none =>
      rw [hh] at hd
      simp only [Option.some.injEq] at hd
      subst hd
      refine ⟨fun j hj => ?_, fun h => absurd h hgrow,
        fun _ => ⟨hrange.1, hrange.2, fun _ => ?_, rfl⟩, fun h => absurd rfl h⟩
      · simp only [Option.some.injEq] at hj
        subst hj
        exact hlt
      · rw [hnat]
    | some e =>
      rw [hh] at hd
      cases hp : (createMgoSession env mongoURL g.session g.nextSession).panic with
      | some p =>
        rw [hp] at hd
        simp only [Option.some.injEq] at hd
        subst hd
        exact ⟨fun j hj => by simp at hj, fun h => absurd h hgrow,
          fun _ => ⟨hrange.1, hrange.2, fun h => by simp at h, rfl⟩, fun _ => ⟨rfl, rfl⟩⟩
      | none =>
        rw [hp] at hd
        simp only [Option.some.injEq] at hd
        subst hd
        refine ⟨fun j hj => ?_, fun h => absurd h hgrow,
          fun _ => ⟨hrange.1, hrange.2, fun _ => ?_, List.length_set _ _ _⟩,
          fun h => absurd rfl h⟩
        · simp only [Option.some.injEq] at hj
          subst hj
          rw [List.length_set]
          exact hlt
        · rw [hnat]

/-- With a negative `maxPool` the first call on the empty pool indexes `pool[0]`
of an empty pool. -/
theorem get_negative_maxPool :
    GetCustomPoolSession (-1) ⟨none, none, none, none⟩ "mongodb://db" (Globals.init ⟨none⟩ 0) =
      none := by
  decide

/-- C11: for `maxPool >= 0`, no sequential run of `GetCustomPoolSession` and
`FlushPull` calls from the empty pool, whatever the driver and the network
answer, meets an index out of range; and in the state it reaches, no further
`GetCustomPoolSession` call does either: the index it returns lies in the pool
it leaves, and once the pool is full the index `pos` it reads and writes
satisfies `0 <= pos < len(pool)` for the pool it found, whose length it does
not change, and is the index it returns.  A call that ends in the panic of a
creation returns nothing and leaves the pool as it was. -/
theorem cursor_valid (maxPool : Int) (mongoURL : String) (session : Session) (n : MgoSession)
    (calls : List Call) (hmax : 0 ≤ maxPool) :
    ∃ t, run maxPool mongoURL (Globals.init session n) calls = some t ∧
      ∀ env, ∃ d, GetCustomPoolSession maxPool env mongoURL t.globals = some d ∧
        (∀ i, d.ret.ptr = some i → i < d.globals.pool.length) ∧
        ((t.globals.pool.length : Int) ≤ maxPool →
          ∀ i, d.ret.ptr = some i →
            i = t.globals.pool.length ∧ d.globals.pool.length = t.globals.pool.length + 1) ∧
        (maxPool < (t.globals.pool.length : Int) →
          0 ≤ nextPos maxPool t.globals ∧
          nextPos maxPool t.globals < (t.globals.pool.length : Int) ∧
          (d.panic = none → d.ret.ptr = some (nextPos maxPool t.globals).toNat) ∧
          d.globals.pool.length = t.globals.pool.length) ∧
        (d.panic ≠ none → d.ret = ⟨none, none⟩ ∧ d.globals.pool = t.globals.pool) := by
  have hinit := inv_init maxPool hmax session n
  obtain ⟨t, ht⟩ := foldlM_completes maxPool mongoURL hmax calls
    ⟨[], [], Globals.init session n, none⟩ hinit
  have hinv := inv_foldlM maxPool mongoURL hmax calls _ t hinit ht
  refine ⟨t, ht, fun env => ?_⟩
  obtain ⟨d, hd⟩ := get_completes maxPool env mongoURL t.globals hinv
  exact ⟨d, hd, get_index_valid maxPool env mongoURL t.globals d hinv hd⟩

theorem cursor_valid_witness :
    ∃ t, run 1 "mongodb://db" (Globals.init ⟨none⟩ 0)
        [Call.get ⟨none, none, none, none⟩,
          Call.get ⟨some "no reachable servers", none, none, none⟩,
          Call.get ⟨none, none, none, none⟩, Call.get ⟨none, some "EOF", none, none⟩,
          Call.flush [], Call.get ⟨none, none, none, none⟩] = some t ∧
      ∀ env, ∃ d, GetCustomPoolSession 1 env "mongodb://db" t.globals = some d ∧
        (∀ i, d.ret.ptr = some i → i < d.globals.pool.length) ∧
        ((t.globals.pool.length : Int) ≤ 1 →
          ∀ i, d.ret.ptr = some i →
            i = t.globals.pool.length ∧ d.globals.pool.length = t.globals.pool.length + 1) ∧
        (1 < (t.globals.pool.length : Int) →
          0 ≤ nextPos 1 t.globals ∧
          nextPos 1 t.globals < (t.globals.pool.length : Int) ∧
          (d.panic = none → d.ret.ptr = some (nextPos 1 t.globals).toNat) ∧
          d.globals.pool.length = t.globals.pool.length) ∧
        (d.panic ≠ none → d.ret = ⟨none, none⟩ ∧ d.globals.pool = t.globals.pool) :=
  cursor_valid 1 "mongodb://db" ⟨none⟩ 0
    [Call.get ⟨none, none, none, none⟩,
      Call.get ⟨some "no reachable servers", none, none, none⟩,
      Call.get ⟨none, none, none, none⟩, Call.get ⟨none, some "EOF", none, none⟩,
      Call.flush [], Call.get ⟨none, none, none, none⟩] (by decide)

end Mongo

end Blackwhale
